/-
Verification of the SnapViewer conversion pipeline (`convert_snap.py`):
shallow embedding of the event classifier, timeline simulator, call-stack
formatter, snapshot reader and SQLite-row writer, with proofs of the
specified invariants.

Python dicts holding trajectories are shared by reference between
`current_data` and `data`; the embedding uses an arena `trajs : List Traj`
(creation order = `data` order) and `currentT` holds arena indices of the
live trajectories, so every in-place mutation is a `modifyAt` on the arena.
-/
import Mathlib

set_option linter.unusedVariables false
set_option maxRecDepth 4000

namespace SnapViewer

/-- A stack frame record `{filename, line, name}`. -/
structure Frame where
  filename : String
  line : Int
  name : String
  deriving Repr, DecidableEq

/-- An input event. `frames` is `Option` because the input contract marks the
`frames` key as possibly absent; `elem["frames"]` on an absent key is a
Python `KeyError`, modelled as `none`. -/
structure Event where
  action : String
  addr : Int
  size : Int
  frames : Option (List Frame)
  deriving Repr, DecidableEq

instance : Inhabited Event := ⟨⟨"", 0, 0, none⟩⟩

/-- A regular (non-summary) trajectory dict as built by `process_alloc_data`. -/
structure Traj where
  elem : Nat
  timesteps : List Int
  offsets : List Int
  size : Int
  color : Nat
  deriving Repr, DecidableEq

instance : Inhabited Traj := ⟨⟨0, [], [], 0, 0⟩⟩

/-- The special summarized memory track (its `size` field is a list). -/
structure Summary where
  timesteps : List Int
  offsets : List Int
  size : List Int
  deriving Repr, DecidableEq

/-- `format_frame(iframe)`: one line `(index) filename:line:name`. -/
def format_frame (iframe : Nat × Frame) : String :=
  s!"({iframe.1}) {iframe.2.filename}:{iframe.2.line}:{iframe.2.name}"

/-- `format_callstack`: newline-join of `(i) filename:line:name` lines. -/
def format_callstack (frames : List Frame) : String :=
  String.intercalate "\n" (frames.enum.map format_frame)

/-! ## Event classifier (first loop of `process_alloc_data`) -/

/-- State of the classification pass: `addr_to_alloc` is the Python dict
mapped as an association list with unique keys (insert overwrites). -/
structure ClassSt where
  elements : List Event
  initially_allocated : List Nat
  actions : List Nat
  addr_to_alloc : List (Int × Nat)
  deriving Repr, DecidableEq

/-- `addr in addr_to_alloc` / `addr_to_alloc[addr]`. -/
def lookupAddr (m : List (Int × Nat)) (a : Int) : Option Nat :=
  (m.find? fun p => p.1 = a).map Prod.snd

/-- `del addr_to_alloc[addr]`. -/
def eraseAddr (m : List (Int × Nat)) (a : Int) : List (Int × Nat) :=
  m.filter fun p => ¬ p.1 = a

/-- `addr_to_alloc[addr] = i` (dict assignment overwrites the key). -/
def insertAddr (m : List (Int × Nat)) (a : Int) (i : Nat) : List (Int × Nat) :=
  eraseAddr m a ++ [(a, i)]

/-- One event of the classification loop. -/
def classStep (st : ClassSt) (event : Event) : ClassSt :=
  if event.action = "alloc" then
    -- register allocation: append to elements, record addr, append action
    { st with
      elements := st.elements ++ [event]
      addr_to_alloc := insertAddr st.addr_to_alloc event.addr st.elements.length
      actions := st.actions ++ [st.elements.length] }
  else if event.action = "free" ∨ event.action = "free_completed" then
    match lookupAddr st.addr_to_alloc event.addr with
    | some i =>
        { st with
          actions := st.actions ++ [i]
          addr_to_alloc := eraseAddr st.addr_to_alloc event.addr }
    | none =>
        -- unmatched free: synthetic initially-allocated element
        { st with
          elements := st.elements ++ [event]
          initially_allocated := st.initially_allocated ++ [st.elements.length]
          actions := st.actions ++ [st.elements.length] }
  else st

/-- Classification of a prefix of the trace. -/
def classifyFrom (st : ClassSt) (trace : List Event) : ClassSt :=
  trace.foldl classStep st

/-- Full classification pass. -/
def classify (trace : List Event) : ClassSt :=
  classifyFrom ⟨[], [], [], []⟩ trace

/-! ## Timeline simulator (second part of `process_alloc_data`) -/

/-- Simulator state.  `current` is the live set of element indices;
`currentT` is the parallel list of arena indices into `trajs`. -/
structure SimSt where
  current : List Nat
  currentT : List Nat
  trajs : List Traj
  total_mem : Int
  total_summarized_mem : Int
  timestep : Int
  summary : Summary
  max_size : Int
  max_at_time : List Int
  deriving Repr, DecidableEq

/-- Modify the list element at position `i` (identity when out of range). -/
def modifyAt (l : List α) (i : Nat) (f : α → α) : List α :=
  match l, i with
  | [], _ => []
  | a :: as, 0 => f a :: as
  | a :: as, n + 1 => a :: modifyAt as n f

/-- `advance(n)`: record one summary sample, then step the clock by `n`. -/
def advance (n : Nat) (st : SimSt) : SimSt :=
  { st with
    summary := { st.summary with
      timesteps := st.summary.timesteps ++ [st.timestep]
      offsets := st.summary.offsets ++ [st.total_mem]
      size := st.summary.size ++ [st.total_summarized_mem] }
    timestep := st.timestep + n
    max_at_time :=
      st.max_at_time ++ List.replicate n (st.total_mem + st.total_summarized_mem) }

/-- Append the closing sample `(ts, last_offset)` to a trajectory. -/
def closeAppend (t : Traj) (ts : Int) : Traj :=
  { t with
    timesteps := t.timesteps ++ [ts]
    offsets := t.offsets ++ [t.offsets.getLastD 0] }

/-- Append the shift samples `(ts, last)` and `(ts+3, last - size)`. -/
def shiftAppend (size : Int) (ts : Int) (t : Traj) : Traj :=
  { t with
    timesteps := t.timesteps ++ [ts, ts + 3]
    offsets := t.offsets ++ [t.offsets.getLastD 0, t.offsets.getLastD 0 - size] }

/-- `next(i for i in reversed(range(len(current))) if current[i] == elem)`. -/
def findLastIdx (current : List Nat) (e : Nat) : Option Nat :=
  (List.range current.length).reverse.find? fun i => current.get? i = some e

/-- One step of the initial-allocations phase (no `advance`). -/
def initStep (elements : List Event) (st : SimSt) (e : Nat) : SimSt :=
  let element := elements.getD e default
  { st with
    current := st.current ++ [e]
    currentT := st.currentT ++ [st.trajs.length]
    trajs := st.trajs ++ [⟨e, [st.timestep], [st.total_mem], element.size, e⟩]
    total_mem := st.total_mem + element.size }

/-- The miss branch of the replay loop: a new allocation. -/
def allocMissStep (st : SimSt) (e : Nat) (size : Int) : SimSt :=
  advance 1
    { st with
      current := st.current ++ [e]
      currentT := st.currentT ++ [st.trajs.length]
      trajs := st.trajs ++ [(⟨e, [st.timestep], [st.total_mem], size, e⟩ : Traj)]
      total_mem := st.total_mem + size }

/-- The hit branch of the replay loop: freeing the entry at position `idx`.
The removed trajectory is closed at its current offset; the entries stacked
above it receive the shift samples and, when any exist, `advance(3)` runs;
finally `total_mem` drops by `size` and `advance(1)` runs. -/
def freeHitStep (st : SimSt) (idx : Nat) (size : Int) : SimSt :=
  let j := st.currentT.getD idx 0
  let trajs1 := modifyAt st.trajs j (closeAppend · st.timestep)
  let current' := st.current.eraseIdx idx
  let currentT' := st.currentT.eraseIdx idx
  let st1 :=
    { st with trajs := trajs1, current := current', currentT := currentT' }
  let st2 :=
    if idx < currentT'.length then
      advance 3
        { st1 with
          trajs := (currentT'.drop idx).foldl
            (fun tr j' => modifyAt tr j' (shiftAppend size st.timestep)) trajs1 }
    else st1
  advance 1 { st2 with total_mem := st2.total_mem - size }

/-- One step of the action replay loop. -/
def actionStep (elements : List Event) (st : SimSt) (e : Nat) : SimSt :=
  let element := elements.getD e default
  let size := element.size
  let st' :=
    match findLastIdx st.current e with
    | none => allocMissStep st e size
    | some idx => freeHitStep st idx size
  { st' with max_size := max st'.max_size (st'.total_mem + st'.total_summarized_mem) }

/-- Initial simulator state. The summary's `offsets` is pre-seeded with the
creation-time `total_mem` (0). -/
def simInit : SimSt :=
  { current := []
    currentT := []
    trajs := []
    total_mem := 0
    total_summarized_mem := 0
    timestep := 0
    summary := ⟨[], [0], []⟩
    max_size := 0
    max_at_time := [] }

/-- State after the initial-allocations phase (reversed insertion order). -/
def simAfterInit (elements : List Event) (initially_allocated : List Nat) : SimSt :=
  initially_allocated.reverse.foldl (initStep elements) simInit

/-- Close the timeline of every still-allocated block. -/
def finalizeTrajs (st : SimSt) : List Traj :=
  st.currentT.foldl (fun tr j => modifyAt tr j (closeAppend · st.timestep)) st.trajs

/-- Result of `process_alloc_data`: the regular trajectories (creation order,
the summary entry appended last in the source is kept separately), the
summary track and the elements. -/
structure AllocData where
  data : List Traj
  summary : Summary
  elements : List Event
  deriving Repr, DecidableEq

/-- `process_alloc_data`, whole pipeline on one device trace. -/
def process_alloc_data (device_trace : List Event) : AllocData :=
  let cl := classify device_trace
  let st1 := simAfterInit cl.elements cl.initially_allocated
  let st2 := cl.actions.foldl (actionStep cl.elements) st1
  ⟨finalizeTrajs st2, st2.summary, cl.elements⟩

/-- `trace_to_allocation_data`: `allocations_over_time[:-1]` drops exactly the
summary entry appended last, leaving the regular trajectories. -/
def trace_to_allocation_data (device_trace : List Event) :
    List Traj × List Event :=
  let ad := process_alloc_data device_trace
  (ad.data, ad.elements)

/-! ## Snapshot reader (`get_trace`) -/

/-- Python list indexing `l[i]`, with negative-index semantics:
`l[i]` is `l[len l + i]` for `-len l ≤ i < 0`, and an `IndexError`
(here `none`) outside `-len l ≤ i < len l`. -/
def pyGet (l : List α) (i : Int) : Option α :=
  if 0 ≤ i then l.get? i.toNat
  else if (-i) ≤ (l.length : Int) then l.get? (l.length - (-i).toNat)
  else none

/-- Outcome of `get_trace`. The error constructors carry the data that the
source interpolates into its message (the valid-range text `expected`, the
offending id, the list of device indices with non-empty traces); both error
paths call `sys.exit(1)`. `indexError` models the uncaught Python
`IndexError` raised by `trace[device_id]` for `device_id < -len(trace)`. -/
inductive TraceResult where
  | ok (trace : List Event)
  | deviceOutOfRange (expected : String) (got : Int)
  | emptyDevice (requested : Int) (devices_with_trace : List Nat)
  | indexError
  deriving Repr, DecidableEq

/-- Process exit code of each `get_trace` outcome: `sys.exit(1)` on both
reported failures (an uncaught `IndexError` also terminates with code 1,
but with a traceback instead of the reported message). -/
def TraceResult.exitCode : TraceResult → Nat
  | .ok _ => 0
  | .deviceOutOfRange _ _ => 1
  | .emptyDevice _ _ => 1
  | .indexError => 1

/-- `get_trace(dump, device_id)`, applied to `dump["device_traces"]`. -/
def get_trace (device_traces : List (List Event)) (device_id : Int) :
    TraceResult :=
  if (device_traces.length : Int) ≤ device_id then
    .deviceOutOfRange
      (if device_traces.length = 1 then "0"
       else s!"0 ~ {device_traces.length - 1}")
      device_id
  else
    match pyGet device_traces device_id with
    | none => .indexError
    | some tr =>
        if tr.length = 0 then
          .emptyDevice device_id
            ((device_traces.enum.filter fun p => 0 < p.2.length).map Prod.fst)
        else .ok tr

/-! ## Artifact writer (`make_db` / `insert_data`) -/

/-- Whether `get_trace` returned a trace (rather than failing). -/
def TraceResult.isOk : TraceResult → Bool
  | .ok _ => true
  | _ => false

/-- One row of the `allocs` table. -/
structure Row where
  idx : Nat
  size : Int
  start_time : Int
  end_time : Int
  callstack : String
  deriving Repr, DecidableEq

instance : Inhabited Row := ⟨⟨0, 0, 0, 0, ""⟩⟩

/-- `insert_data(idx, alloc, elem)`: builds one row; `elem["frames"]` on an
element without the `frames` key raises `KeyError`, modelled as `none`.
`alloc["timesteps"][0]` / `[-1]` are total via defaults; every trajectory
produced by the simulator has a non-empty `timesteps` (proved below), so
the defaults are never taken on pipeline data. -/
def insert_data (idx : Nat) (alloc : Traj) (elem : Event) : Option Row :=
  elem.frames.map fun fr =>
    ⟨idx, alloc.size, alloc.timesteps.headD 0, alloc.timesteps.getLastD 0,
     format_callstack fr⟩

/-- The rows `make_db(allocs, elems)` inserts, in order.  The source batches
`zip(range(start, end), allocs[start:end], elems[start:end])` per 10,000,
which concatenates to the single zip below; `none` when any zipped element
lacks `frames` (the Python run dies with `KeyError`). -/
def makeDbRows (allocs : List Traj) (elems : List Event) :
    Option (List Row) :=
  (allocs.zip elems).enum.mapM fun p => insert_data p.1 p.2.1 p.2.2

/-! ## Arena-update lemmas -/

theorem modifyAt_length (l : List α) (i : Nat) (f : α → α) :
    (modifyAt l i f).length = l.length := by
  induction l generalizing i with
  | nil => rfl
  | cons a as ih =>
      cases i with
      | zero => rfl
      | succ n => simpa [modifyAt] using ih n

theorem get?_modifyAt_self (l : List α) (i : Nat) (f : α → α) :
    (modifyAt l i f).get? i = (l.get? i).map f := by
  induction l generalizing i with
  | nil => cases i <;> rfl
  | cons a as ih =>
      cases i with
      | zero => rfl
      | succ n => simpa [modifyAt] using ih n

theorem get?_modifyAt_ne (l : List α) (i p : Nat) (f : α → α) (h : i ≠ p) :
    (modifyAt l i f).get? p = l.get? p := by
  induction l generalizing i p with
  | nil => cases i <;> rfl
  | cons a as ih =>
      cases i with
      | zero =>
          cases p with
          | zero => exact absurd rfl h
          | succ q => rfl
      | succ n =>
          cases p with
          | zero => rfl
          | succ q => simpa [modifyAt] using ih n q (by omega)

theorem foldl_modifyAt_length (ns : List Nat) (f : α → α) (l : List α) :
    (ns.foldl (fun tr j => modifyAt tr j f) l).length = l.length := by
  induction ns generalizing l with
  | nil => rfl
  | cons n ns ih => simpa [modifyAt_length] using ih (modifyAt l n f)

theorem get?_foldl_modifyAt_not_mem (ns : List Nat) (f : α → α) (l : List α)
    (p : Nat) (hp : p ∉ ns) :
    (ns.foldl (fun tr j => modifyAt tr j f) l).get? p = l.get? p := by
  induction ns generalizing l with
  | nil => rfl
  | cons n ns ih =>
      have hpn : n ≠ p := fun h => hp (h ▸ List.mem_cons_self n ns)
      have hpns : p ∉ ns := fun h => hp (List.mem_cons_of_mem n h)
      simp only [List.foldl_cons]
      rw [ih (modifyAt l n f) hpns, get?_modifyAt_ne l n p f hpn]

theorem get?_foldl_modifyAt_mem (ns : List Nat) (f : α → α) (l : List α)
    (p : Nat) (hnd : ns.Nodup) (hp : p ∈ ns) :
    (ns.foldl (fun tr j => modifyAt tr j f) l).get? p = (l.get? p).map f := by
  induction ns generalizing l with
  | nil => cases hp
  | cons n ns ih =>
      simp only [List.foldl_cons]
      rcases List.mem_cons.mp hp with h | h
      · subst h
        have hout : p ∉ ns := (List.nodup_cons.mp hnd).1
        rw [get?_foldl_modifyAt_not_mem ns f _ p hout,
          get?_modifyAt_self]
      · have hnp : n ≠ p := by
          rintro rfl
          exact (List.nodup_cons.mp hnd).1 h
        rw [ih (modifyAt l n f) (List.nodup_cons.mp hnd).2 h,
          get?_modifyAt_ne l n p f hnp]

/-! ## The packed-layout predicate

`stacked acc lasts sizes` says the parallel lists of live last-offsets and
live sizes form the packed layout starting at base `acc`: each block's last
offset is the base plus the sizes of the blocks below it. -/

def stacked : Int → List Int → List Int → Prop
  | _, [], [] => True
  | acc, o :: os, s :: ss => o = acc ∧ stacked (acc + s) os ss
  | _, _, _ => False

theorem stacked_append (acc : Int) (os ss : List Int) (s' : Int)
    (h : stacked acc os ss) (hlen : os.length = ss.length) :
    stacked acc (os ++ [acc + ss.sum]) (ss ++ [s']) := by
  induction os generalizing acc ss with
  | nil =>
      cases ss with
      | nil => simp [stacked]
      | cons s ss => cases hlen
  | cons o os ih =>
      cases ss with
      | nil => cases hlen
      | cons s ss =>
          obtain ⟨ho, hrest⟩ := h
          refine ⟨ho, ?_⟩
          have := ih (acc + s) ss hrest (by simpa using hlen)
          simpa [add_assoc, List.sum_cons] using this

theorem stacked_shift (acc d : Int) (os ss : List Int)
    (h : stacked acc os ss) :
    stacked (acc - d) (os.map (· - d)) ss := by
  induction os generalizing acc ss with
  | nil =>
      cases ss with
      | nil => trivial
      | cons s ss => cases h
  | cons o os ih =>
      cases ss with
      | nil => cases h
      | cons s ss =>
          obtain ⟨ho, hrest⟩ := h
          refine ⟨show o - d = acc - d by omega, ?_⟩
          have := ih (acc + s) ss hrest
          simpa [sub_add_eq_add_sub] using this

theorem stacked_erase (acc : Int) (l1 s1 : List Int) (o s : Int)
    (l2 s2 : List Int) (hlen : l1.length = s1.length)
    (h : stacked acc (l1 ++ o :: l2) (s1 ++ s :: s2)) :
    stacked acc (l1 ++ l2.map (· - s)) (s1 ++ s2) := by
  induction l1 generalizing acc s1 with
  | nil =>
      cases s1 with
      | nil =>
          obtain ⟨ho, hrest⟩ := h
          have := stacked_shift (acc + s) s l2 s2 hrest
          simpa using this
      | cons x xs => cases hlen
  | cons a l1 ih =>
      cases s1 with
      | nil => cases hlen
      | cons x xs =>
          obtain ⟨ho, hrest⟩ := h
          exact ⟨ho, ih (acc + x) xs (by simpa using hlen) hrest⟩

theorem stacked_nonneg (acc : Int) (os ss : List Int)
    (h : stacked acc os ss) (hacc : 0 ≤ acc) (hss : ∀ x ∈ ss, 0 ≤ x) :
    ∀ o ∈ os, 0 ≤ o := by
  induction os generalizing acc ss with
  | nil => intro o ho; cases ho
  | cons o os ih =>
      cases ss with
      | nil => cases h
      | cons s ss =>
          obtain ⟨ho, hrest⟩ := h
          intro x hx
          rcases List.mem_cons.mp hx with h | h
          · omega
          · exact ih (acc + s) ss hrest
              (by have := hss s (List.mem_cons_self s ss); omega)
              (fun y hy => hss y (List.mem_cons_of_mem s hy)) x h

theorem stacked_length (acc : Int) (os ss : List Int)
    (h : stacked acc os ss) : os.length = ss.length := by
  induction os generalizing acc ss with
  | nil => cases ss with
    | nil => rfl
    | cons s ss => cases h
  | cons o os ih =>
      cases ss with
      | nil => cases h
      | cons s ss => simpa using ih (acc + s) ss h.2

/-! ## Trajectory-operation lemmas -/

/-- The last offset of a trajectory (`offsets[-1]`). -/
def lastOffset (t : Traj) : Int := t.offsets.getLastD 0

theorem lastOffset_closeAppend (t : Traj) (ts : Int) :
    lastOffset (closeAppend t ts) = lastOffset t := by
  simp [lastOffset, closeAppend, List.getLastD_concat]

theorem lastOffset_shiftAppend (sz ts : Int) (t : Traj) :
    lastOffset (shiftAppend sz ts t) = lastOffset t - sz := by
  have : t.offsets ++ [t.offsets.getLastD 0, t.offsets.getLastD 0 - sz] =
      (t.offsets ++ [t.offsets.getLastD 0]) ++ [t.offsets.getLastD 0 - sz] := by
    simp
  simp [lastOffset, shiftAppend, this, List.getLastD_concat]

theorem size_closeAppend (t : Traj) (ts : Int) :
    (closeAppend t ts).size = t.size := rfl

theorem size_shiftAppend (sz ts : Int) (t : Traj) :
    (shiftAppend sz ts t).size = t.size := rfl

theorem headD_closeAppend (t : Traj) (ts : Int) (h : t.offsets ≠ []) :
    (closeAppend t ts).offsets.headD 0 = t.offsets.headD 0 := by
  cases ho : t.offsets with
  | nil => exact absurd ho h
  | cons a os => simp [closeAppend, ho]

theorem headD_shiftAppend (sz ts : Int) (t : Traj) (h : t.offsets ≠ []) :
    (shiftAppend sz ts t).offsets.headD 0 = t.offsets.headD 0 := by
  cases ho : t.offsets with
  | nil => exact absurd ho h
  | cons a os => simp [shiftAppend, ho]

theorem offsets_ne_closeAppend (t : Traj) (ts : Int) :
    (closeAppend t ts).offsets ≠ [] := by simp [closeAppend]

theorem offsets_ne_shiftAppend (sz ts : Int) (t : Traj) :
    (shiftAppend sz ts t).offsets ≠ [] := by simp [shiftAppend]

theorem timesteps_ne_closeAppend (t : Traj) (ts : Int) :
    (closeAppend t ts).timesteps ≠ [] := by simp [closeAppend]

theorem timesteps_ne_shiftAppend (sz ts : Int) (t : Traj) :
    (shiftAppend sz ts t).timesteps ≠ [] := by simp [shiftAppend]

theorem ts_sorted_closeAppend (t : Traj) (ts : Int)
    (hs : t.timesteps.Pairwise (· ≤ ·)) (hle : ∀ x ∈ t.timesteps, x ≤ ts) :
    (closeAppend t ts).timesteps.Pairwise (· ≤ ·) := by
  simp only [closeAppend]
  rw [List.pairwise_append]
  exact ⟨hs, List.pairwise_singleton _ _, by simpa using hle⟩

theorem ts_sorted_shiftAppend (sz ts : Int) (t : Traj)
    (hs : t.timesteps.Pairwise (· ≤ ·)) (hle : ∀ x ∈ t.timesteps, x ≤ ts) :
    (shiftAppend sz ts t).timesteps.Pairwise (· ≤ ·) := by
  simp only [shiftAppend]
  rw [List.pairwise_append]
  refine ⟨hs, ?_, ?_⟩
  · simp
  · intro x hx y hy
    have := hle x hx
    rcases List.mem_cons.mp hy with h | h
    · omega
    · simp only [List.mem_singleton] at h
      omega

theorem ts_le_closeAppend (t : Traj) (ts bound : Int)
    (hle : ∀ x ∈ t.timesteps, x ≤ bound) (hts : ts ≤ bound) :
    ∀ x ∈ (closeAppend t ts).timesteps, x ≤ bound := by
  intro x hx
  simp only [closeAppend, List.mem_append, List.mem_singleton] at hx
  rcases hx with h | h
  · exact hle x h
  · omega

theorem ts_le_shiftAppend (sz ts bound : Int) (t : Traj)
    (hle : ∀ x ∈ t.timesteps, x ≤ bound) (hts : ts + 3 ≤ bound) :
    ∀ x ∈ (shiftAppend sz ts t).timesteps, x ≤ bound := by
  intro x hx
  have hx' : x ∈ t.timesteps ∨ x = ts ∨ x = ts + 3 := by
    simpa [shiftAppend] using hx
  rcases hx' with h | h | h
  · have := hle x h
    omega
  · omega
  · omega

/-! ## The simulator invariant -/

/-- Sizes of the live trajectories, in live-set order. -/
def liveSizes (st : SimSt) : List Int :=
  st.currentT.map fun j => (st.trajs.getD j default).size

/-- Last offsets of the live trajectories, in live-set order. -/
def liveLasts (st : SimSt) : List Int :=
  st.currentT.map fun j => lastOffset (st.trajs.getD j default)

/-- Structural invariant of the simulator state (no sign conditions):
the live set and its trajectory indices are parallel, arena indices are
strictly increasing (hence distinct) and in bounds, each live trajectory's
size matches its element's size, `total_mem` is the sum of live sizes, the
live last-offsets form the packed layout over the live sizes, and every
trajectory has non-empty, non-decreasing timesteps bounded by the clock. -/
structure Inv (elements : List Event) (st : SimSt) : Prop where
  len_eq : st.currentT.length = st.current.length
  sorted : st.currentT.Pairwise (· < ·)
  bounded : ∀ j ∈ st.currentT, j < st.trajs.length
  size_match : ∀ k, k < st.currentT.length →
    (st.trajs.getD (st.currentT.getD k 0) default).size =
    (elements.getD (st.current.getD k 0) default).size
  mem_ok : st.total_mem = (liveSizes st).sum
  stacked_ok : stacked 0 (liveLasts st) (liveSizes st)
  off_ne : ∀ t ∈ st.trajs, t.offsets ≠ []
  ts_ne : ∀ t ∈ st.trajs, t.timesteps ≠ []
  ts_sorted : ∀ t ∈ st.trajs, t.timesteps.Pairwise (· ≤ ·)
  ts_le : ∀ t ∈ st.trajs, ∀ x ∈ t.timesteps, x ≤ st.timestep

/-- Sign invariant, meaningful when all element sizes are non-negative. -/
structure InvN (st : SimSt) : Prop where
  size_nonneg : ∀ t ∈ st.trajs, 0 ≤ t.size
  head_nonneg : ∀ t ∈ st.trajs, 0 ≤ t.offsets.headD 0
  last_nonneg : ∀ t ∈ st.trajs, 0 ≤ lastOffset t

/-! ## Invariant preservation -/

theorem map_getD_append (trajs : List Traj) (t : Traj) (C : List Nat)
    (hb : ∀ j ∈ C, j < trajs.length) (g : Traj → β) :
    C.map (fun j => g ((trajs ++ [t]).getD j default)) =
      C.map (fun j => g (trajs.getD j default)) :=
  List.map_congr_left fun j hj => by
    rw [List.getD_eq_get?, List.getD_eq_get?, List.get?_append (hb j hj)]

theorem getD_mem_of_lt (l : List α) (k : Nat) (d : α) (hk : k < l.length) :
    l.getD k d ∈ l := by
  rw [List.getD_eq_get?, List.get?_eq_get hk]
  exact List.get_mem l k hk

theorem inv_simInit (elements : List Event) : Inv elements simInit := by
  refine ⟨rfl, ?_, ?_, ?_, rfl, trivial, ?_, ?_, ?_, ?_⟩ <;>
    simp [simInit, liveSizes, liveLasts]

theorem advance_inv (elements : List Event) (n : Nat) (st : SimSt)
    (h : Inv elements st) : Inv elements (advance n st) := by
  obtain ⟨h1, h2, h3, h4, h5, h6, h7, h8, h9, h10⟩ := h
  refine ⟨h1, h2, h3, h4, h5, h6, h7, h8, h9, ?_⟩
  intro t ht x hx
  have hb := h10 t ht x hx
  have hn : (0 : Int) ≤ (n : Int) := Int.ofNat_nonneg n
  simp only [advance]
  omega

theorem appendNew_inv (elements : List Event) (st : SimSt) (e : Nat)
    (size : Int) (hsize : size = (elements.getD e default).size)
    (h : Inv elements st) :
    Inv elements
      { st with
        current := st.current ++ [e]
        currentT := st.currentT ++ [st.trajs.length]
        trajs := st.trajs ++ [(⟨e, [st.timestep], [st.total_mem], size, e⟩ : Traj)]
        total_mem := st.total_mem + size } := by
  obtain ⟨h1, h2, h3, h4, h5, h6, h7, h8, h9, h10⟩ := h
  set newT : Traj := ⟨e, [st.timestep], [st.total_mem], size, e⟩ with hnewT
  have hLS : liveSizes
      { st with
        current := st.current ++ [e]
        currentT := st.currentT ++ [st.trajs.length]
        trajs := st.trajs ++ [newT]
        total_mem := st.total_mem + size } = liveSizes st ++ [size] := by
    simp only [liveSizes, List.map_append, List.map_cons, List.map_nil]
    rw [map_getD_append st.trajs newT st.currentT h3]
    congr 1
    rw [List.getD_eq_get?, List.get?_concat_length]
    rfl
  have hLL : liveLasts
      { st with
        current := st.current ++ [e]
        currentT := st.currentT ++ [st.trajs.length]
        trajs := st.trajs ++ [newT]
        total_mem := st.total_mem + size } =
      liveLasts st ++ [st.total_mem] := by
    simp only [liveLasts, List.map_append, List.map_cons, List.map_nil]
    rw [map_getD_append st.trajs newT st.currentT h3]
    congr 1
    rw [List.getD_eq_get?, List.get?_concat_length]
    rfl
  refine ⟨?_, ?_, ?_, ?_, ?_, ?_, ?_, ?_, ?_, ?_⟩
  · simp [h1]
  · rw [List.pairwise_append]
    refine ⟨h2, List.pairwise_singleton _ _, ?_⟩
    intro x hx y hy
    simp only [List.mem_singleton] at hy
    subst hy
    exact h3 x hx
  · intro j hj
    simp only [List.length_append, List.length_cons, List.length_nil]
    rcases List.mem_append.mp hj with hj | hj
    · have := h3 j hj
      omega
    · simp only [List.mem_singleton] at hj
      omega
  · intro k hk
    simp only [List.length_append, List.length_cons, List.length_nil] at hk
    by_cases hkl : k < st.currentT.length
    · have hc1 : (st.currentT ++ [st.trajs.length]).getD k 0 =
          st.currentT.getD k 0 := by
        rw [List.getD_eq_get?, List.getD_eq_get?, List.get?_append hkl]
      have hc2 : (st.current ++ [e]).getD k 0 = st.current.getD k 0 := by
        rw [List.getD_eq_get?, List.getD_eq_get?,
          List.get?_append (h1 ▸ hkl)]
      have hc3 : ∀ j ∈ st.currentT,
          (st.trajs ++ [newT]).getD j default = st.trajs.getD j default := by
        intro j hj
        rw [List.getD_eq_get?, List.getD_eq_get?, List.get?_append (h3 j hj)]
      rw [hc1, hc2, hc3 _ (getD_mem_of_lt st.currentT k 0 hkl)]
      exact h4 k hkl
    · have hkeq : k = st.currentT.length := by omega
      subst hkeq
      have hc1 : (st.currentT ++ [st.trajs.length]).getD st.currentT.length 0 =
          st.trajs.length := by
        rw [List.getD_eq_get?, List.get?_concat_length]
        rfl
      have hc2 : (st.current ++ [e]).getD st.currentT.length 0 = e := by
        rw [List.getD_eq_get?, h1, List.get?_concat_length]
        rfl
      have hc3 : (st.trajs ++ [newT]).getD st.trajs.length default = newT := by
        rw [List.getD_eq_get?, List.get?_concat_length]
        rfl
      rw [hc1, hc2, hc3, ← hsize]
  · rw [hLS]
    simp [h5]
  · rw [hLS, hLL]
    have := stacked_append 0 (liveLasts st) (liveSizes st) size h6
      (by simp [liveLasts, liveSizes])
    rw [← h5] at this
    simpa using this
  · intro t ht
    rcases List.mem_append.mp ht with ht | ht
    · exact h7 t ht
    · simp only [List.mem_singleton] at ht
      subst ht
      simp [hnewT]
  · intro t ht
    rcases List.mem_append.mp ht with ht | ht
    · exact h8 t ht
    · simp only [List.mem_singleton] at ht
      subst ht
      simp [hnewT]
  · intro t ht
    rcases List.mem_append.mp ht with ht | ht
    · exact h9 t ht
    · simp only [List.mem_singleton] at ht
      subst ht
      simp [hnewT]
  · intro t ht x hx
    rcases List.mem_append.mp ht with ht | ht
    · exact h10 t ht x hx
    · simp only [List.mem_singleton] at ht
      subst ht
      simp only [hnewT, List.mem_singleton] at hx
      simp [hx]

theorem get?_eraseIdx_of_lt (l : List α) (i k : Nat) (hi : i < l.length)
    (h : k < i) : (l.eraseIdx i).get? k = l.get? k := by
  rw [List.eraseIdx_eq_take_drop_succ, List.get?_append, List.get?_take h]
  rw [List.length_take]
  omega

theorem get?_eraseIdx_of_ge (l : List α) (i k : Nat) (hi : i < l.length)
    (h : i ≤ k) : (l.eraseIdx i).get? k = l.get? (k + 1) := by
  rw [List.eraseIdx_eq_take_drop_succ, List.get?_append_right, List.get?_drop]
  · congr 1
    rw [List.length_take]
    omega
  · rw [List.length_take]
    omega

theorem combined_get?_of_ne (trajs : List Traj) (j : Nat) (D : List Nat)
    (sz ts : Int) (p : Nat) (hpj : j ≠ p) (hpD : p ∉ D) :
    (D.foldl (fun tr q => modifyAt tr q (shiftAppend sz ts))
      (modifyAt trajs j (closeAppend · ts))).get? p = trajs.get? p := by
  rw [get?_foldl_modifyAt_not_mem _ _ _ _ hpD,
    get?_modifyAt_ne _ _ _ _ hpj]

theorem combined_get?_of_eq (trajs : List Traj) (j : Nat) (D : List Nat)
    (sz ts : Int) (hjD : j ∉ D) :
    (D.foldl (fun tr q => modifyAt tr q (shiftAppend sz ts))
      (modifyAt trajs j (closeAppend · ts))).get? j =
      (trajs.get? j).map (closeAppend · ts) := by
  rw [get?_foldl_modifyAt_not_mem _ _ _ _ hjD, get?_modifyAt_self]

theorem combined_get?_of_memD (trajs : List Traj) (j : Nat) (D : List Nat)
    (sz ts : Int) (p : Nat) (hnd : D.Nodup) (hpD : p ∈ D) (hpj : j ≠ p) :
    (D.foldl (fun tr q => modifyAt tr q (shiftAppend sz ts))
      (modifyAt trajs j (closeAppend · ts))).get? p =
      (trajs.get? p).map (shiftAppend sz ts) := by
  rw [get?_foldl_modifyAt_mem _ _ _ _ hnd hpD,
    get?_modifyAt_ne _ _ _ _ hpj]

theorem combined_length (trajs : List Traj) (j : Nat) (D : List Nat)
    (sz ts : Int) :
    (D.foldl (fun tr q => modifyAt tr q (shiftAppend sz ts))
      (modifyAt trajs j (closeAppend · ts))).length = trajs.length := by
  rw [foldl_modifyAt_length, modifyAt_length]

theorem initStep_inv (elements : List Event) (st : SimSt) (e : Nat)
    (h : Inv elements st) : Inv elements (initStep elements st e) :=
  appendNew_inv elements st e _ rfl h

theorem allocMissStep_inv (elements : List Event) (st : SimSt) (e : Nat)
    (size : Int) (hsize : size = (elements.getD e default).size)
    (h : Inv elements st) : Inv elements (allocMissStep st e size) :=
  advance_inv elements 1 _ (appendNew_inv elements st e size hsize h)

theorem freeHit_fields_inv (elements : List Event) (st : SimSt) (idx e : Nat)
    (size : Int) (st' : SimSt) (hInv : Inv elements st)
    (hidx : idx < st.current.length)
    (he : st.current.get? idx = some e)
    (hsize : size = (elements.getD e default).size)
    (hcur : st'.current = st.current.eraseIdx idx)
    (hcurT : st'.currentT = st.currentT.eraseIdx idx)
    (htr : st'.trajs = (st.currentT.drop (idx + 1)).foldl
      (fun tr q => modifyAt tr q (shiftAppend size st.timestep))
      (modifyAt st.trajs (st.currentT.getD idx 0) (closeAppend · st.timestep)))
    (hmem : st'.total_mem = st.total_mem - size)
    (hts1 : st.timestep ≤ st'.timestep)
    (hts3 : st.currentT.drop (idx + 1) ≠ [] →
      st.timestep + 3 ≤ st'.timestep) :
    Inv elements st' := by
  obtain ⟨h1, h2, h3, h4, h5, h6, h7, h8, h9, h10⟩ := hInv
  have hidxT : idx < st.currentT.length := by rw [h1]; exact hidx
  set C := st.currentT with hCdef
  set j := C.getD idx 0 with hjdef
  set TAKE := C.take idx with hTdef
  set D := C.drop (idx + 1) with hDdef
  have hget : C.get? idx = some (C.get ⟨idx, hidxT⟩) := List.get?_eq_get hidxT
  have hjval : j = C.get ⟨idx, hidxT⟩ := by
    rw [hjdef, List.getD_eq_get?, hget]
    rfl
  have hjget : C.get? idx = some j := by rw [hget, hjval]
  have hCd : C = TAKE ++ j :: D := by
    conv_lhs => rw [← List.take_append_drop idx C]
    congr 1
    rw [List.drop_eq_getElem_cons hidxT]
    congr 1
    rw [hjval]
    simp [List.get_eq_getElem]
  have hnd : C.Nodup := h2.imp fun hlt => Nat.ne_of_lt hlt
  have hndDec : (TAKE ++ j :: D).Nodup := hCd ▸ hnd
  obtain ⟨hndT, hndJD, hdisj⟩ := List.nodup_append.mp hndDec
  have hjD : j ∉ D := (List.nodup_cons.mp hndJD).1
  have hndD : D.Nodup := (List.nodup_cons.mp hndJD).2
  have hjT : j ∉ TAKE := fun h => hdisj h (List.mem_cons_self _ _)
  have hTD : ∀ p ∈ TAKE, p ∉ D :=
    fun p hp hpD => hdisj hp (List.mem_cons_of_mem _ hpD)
  have hE : C.eraseIdx idx = TAKE ++ D := List.eraseIdx_eq_take_drop_succ C idx
  have hjlt : j < st.trajs.length := h3 j (getD_mem_of_lt _ idx 0 hidxT)
  have hDC : ∀ p ∈ D, p ∈ C := fun p hp => by
    rw [hCd]
    exact List.mem_append.mpr (Or.inr (List.mem_cons_of_mem _ hp))
  have hTC : ∀ p ∈ TAKE, p ∈ C := fun p hp => by
    rw [hCd]
    exact List.mem_append.mpr (Or.inl hp)
  have hT2len : st'.trajs.length = st.trajs.length := by
    rw [htr, combined_length]
  have hsz_pres : ∀ p,
      (st'.trajs.getD p default).size = (st.trajs.getD p default).size := by
    intro p
    by_cases hpj : j = p
    · subst hpj
      rw [List.getD_eq_get?, List.getD_eq_get?, htr,
        combined_get?_of_eq _ _ _ _ _ hjD]
      cases st.trajs.get? j with
      | none => rfl
      | some t => exact size_closeAppend t st.timestep
    · by_cases hpD : p ∈ D
      · rw [List.getD_eq_get?, List.getD_eq_get?, htr,
          combined_get?_of_memD _ _ _ _ _ _ hndD hpD hpj]
        cases st.trajs.get? p with
        | none => rfl
        | some t => exact size_shiftAppend size st.timestep t
      · rw [List.getD_eq_get?, List.getD_eq_get?, htr,
          combined_get?_of_ne _ _ _ _ _ _ hpj hpD]
  have hlast_T : ∀ p ∈ TAKE,
      lastOffset (st'.trajs.getD p default) =
      lastOffset (st.trajs.getD p default) := by
    intro p hp
    have hpj : j ≠ p := fun h => hjT (h ▸ hp)
    rw [List.getD_eq_get?, List.getD_eq_get?, htr,
      combined_get?_of_ne _ _ _ _ _ _ hpj (hTD p hp)]
  have hlast_D : ∀ p ∈ D,
      lastOffset (st'.trajs.getD p default) =
      lastOffset (st.trajs.getD p default) - size := by
    intro p hp
    have hpj : j ≠ p := fun h => hjD (h ▸ hp)
    have hplt : p < st.trajs.length := h3 p (hDC p hp)
    have hgp : st.trajs.get? p = some (st.trajs.get ⟨p, hplt⟩) :=
      List.get?_eq_get hplt
    rw [List.getD_eq_get?, List.getD_eq_get?, htr,
      combined_get?_of_memD _ _ _ _ _ _ hndD hp hpj, hgp]
    exact lastOffset_shiftAppend size st.timestep _
  have hmemT2 : ∀ t ∈ st'.trajs,
      (∃ t0 ∈ st.trajs, t = closeAppend t0 st.timestep) ∨
      (D ≠ [] ∧ ∃ t0 ∈ st.trajs, t = shiftAppend size st.timestep t0) ∨
      t ∈ st.trajs := by
    intro t ht
    obtain ⟨p, hp⟩ := List.mem_iff_get?.mp ht
    rw [htr] at hp
    by_cases hpj : j = p
    · subst hpj
      rw [combined_get?_of_eq _ _ _ _ _ hjD] at hp
      obtain ⟨t0, ht0, hr⟩ := Option.map_eq_some'.mp hp
      exact Or.inl ⟨t0, List.get?_mem ht0, hr.symm⟩
    · by_cases hpD : p ∈ D
      · rw [combined_get?_of_memD _ _ _ _ _ _ hndD hpD hpj] at hp
        obtain ⟨t0, ht0, hr⟩ := Option.map_eq_some'.mp hp
        exact Or.inr (Or.inl ⟨List.ne_nil_of_mem hpD,
          t0, List.get?_mem ht0, hr.symm⟩)
      · rw [combined_get?_of_ne _ _ _ _ _ _ hpj hpD] at hp
        exact Or.inr (Or.inr (List.get?_mem hp))
  have hgSj : (st.trajs.getD j default).size = size := by
    have h4i := h4 idx hidxT
    have hce : st.current.getD idx 0 = e := by
      rw [List.getD_eq_get?, he]
      rfl
    rw [← hjdef] at h4i
    rw [h4i, hce, ← hsize]
  refine ⟨?_, ?_, ?_, ?_, ?_, ?_, ?_, ?_, ?_, ?_⟩
  · rw [hcur, hcurT]
    have e1 := List.length_eraseIdx_add_one hidxT
    have e2 := List.length_eraseIdx_add_one hidx
    omega
  · rw [hcurT]
    exact h2.sublist (List.eraseIdx_sublist _ idx)
  · intro q hq
    rw [hcurT] at hq
    rw [hT2len]
    exact h3 q ((List.eraseIdx_sublist _ idx).subset hq)
  · intro k hk
    rw [hcurT] at hk
    have hklen : k < C.length - 1 := by
      have := List.length_eraseIdx_add_one hidxT
      omega
    rw [hcur, hcurT, hsz_pres]
    by_cases hki : k < idx
    · have e1 : (C.eraseIdx idx).getD k 0 = C.getD k 0 := by
        rw [List.getD_eq_get?, List.getD_eq_get?,
          get?_eraseIdx_of_lt _ _ _ hidxT hki]
      have e2 : (st.current.eraseIdx idx).getD k 0 = st.current.getD k 0 := by
        rw [List.getD_eq_get?, List.getD_eq_get?,
          get?_eraseIdx_of_lt _ _ _ hidx hki]
      rw [e1, e2]
      exact h4 k (by omega)
    · have hki' : idx ≤ k := by omega
      have e1 : (C.eraseIdx idx).getD k 0 = C.getD (k + 1) 0 := by
        rw [List.getD_eq_get?, List.getD_eq_get?,
          get?_eraseIdx_of_ge _ _ _ hidxT hki']
      have e2 : (st.current.eraseIdx idx).getD k 0 =
          st.current.getD (k + 1) 0 := by
        rw [List.getD_eq_get?, List.getD_eq_get?,
          get?_eraseIdx_of_ge _ _ _ hidx hki']
      rw [e1, e2]
      exact h4 (k + 1) (by omega)
  · have hLS' : liveSizes st' =
        TAKE.map (fun q => (st.trajs.getD q default).size) ++
        D.map (fun q => (st.trajs.getD q default).size) := by
      rw [liveSizes, hcurT, hE, List.map_append]
      congr 1 <;> exact List.map_congr_left fun q hq => hsz_pres q
    have hLS : liveSizes st =
        TAKE.map (fun q => (st.trajs.getD q default).size) ++
        (st.trajs.getD j default).size ::
          D.map (fun q => (st.trajs.getD q default).size) := by
      rw [liveSizes, ← hCdef]
      conv_lhs => rw [hCd]
      rw [List.map_append, List.map_cons]
    rw [hmem, hLS']
    rw [h5, hLS]
    rw [List.sum_append, List.sum_append, List.sum_cons, hgSj]
    ring
  · have hLL' : liveLasts st' =
        TAKE.map (fun q => lastOffset (st.trajs.getD q default)) ++
        (D.map (fun q => lastOffset (st.trajs.getD q default))).map
          (· - size) := by
      rw [liveLasts, hcurT, hE, List.map_append]
      congr 1
      · exact List.map_congr_left fun q hq => hlast_T q hq
      · rw [List.map_map]
        exact List.map_congr_left fun q hq => hlast_D q hq
    have hLS' : liveSizes st' =
        TAKE.map (fun q => (st.trajs.getD q default).size) ++
        D.map (fun q => (st.trajs.getD q default).size) := by
      rw [liveSizes, hcurT, hE, List.map_append]
      congr 1 <;> exact List.map_congr_left fun q hq => hsz_pres q
    have hLL : liveLasts st =
        TAKE.map (fun q => lastOffset (st.trajs.getD q default)) ++
        lastOffset (st.trajs.getD j default) ::
          D.map (fun q => lastOffset (st.trajs.getD q default)) := by
      rw [liveLasts, ← hCdef]
      conv_lhs => rw [hCd]
      rw [List.map_append, List.map_cons]
    have hLS : liveSizes st =
        TAKE.map (fun q => (st.trajs.getD q default).size) ++
        (st.trajs.getD j default).size ::
          D.map (fun q => (st.trajs.getD q default).size) := by
      rw [liveSizes, ← hCdef]
      conv_lhs => rw [hCd]
      rw [List.map_append, List.map_cons]
    have h6' := h6
    rw [hLL, hLS] at h6'
    have := stacked_erase 0 _ _ _ _ _ _ (by simp) h6'
    rw [hLL', hLS', ← hgSj]
    exact this
  · intro t ht
    rcases hmemT2 t ht with ⟨t0, ht0, rfl⟩ | ⟨hDne, t0, ht0, rfl⟩ | ht'
    · exact offsets_ne_closeAppend t0 st.timestep
    · exact offsets_ne_shiftAppend size st.timestep t0
    · exact h7 t ht'
  · intro t ht
    rcases hmemT2 t ht with ⟨t0, ht0, rfl⟩ | ⟨hDne, t0, ht0, rfl⟩ | ht'
    · exact timesteps_ne_closeAppend t0 st.timestep
    · exact timesteps_ne_shiftAppend size st.timestep t0
    · exact h8 t ht'
  · intro t ht
    rcases hmemT2 t ht with ⟨t0, ht0, rfl⟩ | ⟨hDne, t0, ht0, rfl⟩ | ht'
    · exact ts_sorted_closeAppend t0 st.timestep (h9 t0 ht0) (h10 t0 ht0)
    · exact ts_sorted_shiftAppend size st.timestep t0 (h9 t0 ht0) (h10 t0 ht0)
    · exact h9 t ht'
  · intro t ht
    rcases hmemT2 t ht with ⟨t0, ht0, rfl⟩ | ⟨hDne, t0, ht0, rfl⟩ | ht'
    · exact ts_le_closeAppend t0 st.timestep st'.timestep
        (fun x hx => le_trans (h10 t0 ht0 x hx) hts1) hts1
    · exact ts_le_shiftAppend size st.timestep st'.timestep t0
        (fun x hx => le_trans (h10 t0 ht0 x hx) hts1) (hts3 hDne)
    · intro x hx
      exact le_trans (h10 t ht' x hx) hts1

theorem findLastIdx_some_spec (current : List Nat) (e idx : Nat)
    (h : findLastIdx current e = some idx) :
    idx < current.length ∧ current.get? idx = some e := by
  have h2 := List.mem_of_find?_eq_some h
  have h1 := List.find?_some h
  exact ⟨List.mem_range.mp (List.mem_reverse.mp h2), of_decide_eq_true h1⟩

theorem inv_set_max (elements : List Event) (st : SimSt) (m : Int)
    (h : Inv elements st) : Inv elements { st with max_size := m } := by
  obtain ⟨h1, h2, h3, h4, h5, h6, h7, h8, h9, h10⟩ := h
  exact ⟨h1, h2, h3, h4, h5, h6, h7, h8, h9, h10⟩

theorem eraseIdx_drop_eq (l : List α) (idx : Nat) (h : idx < l.length) :
    (l.eraseIdx idx).drop idx = l.drop (idx + 1) := by
  rw [List.eraseIdx_eq_take_drop_succ]
  exact List.drop_left' (by rw [List.length_take]; omega)

theorem freeHitStep_current (st : SimSt) (idx : Nat) (size : Int) :
    (freeHitStep st idx size).current = st.current.eraseIdx idx := by
  rw [freeHitStep]
  by_cases h : idx < (st.currentT.eraseIdx idx).length <;> simp [advance, h]

theorem freeHitStep_currentT (st : SimSt) (idx : Nat) (size : Int) :
    (freeHitStep st idx size).currentT = st.currentT.eraseIdx idx := by
  rw [freeHitStep]
  by_cases h : idx < (st.currentT.eraseIdx idx).length <;> simp [advance, h]

theorem freeHitStep_total_mem (st : SimSt) (idx : Nat) (size : Int) :
    (freeHitStep st idx size).total_mem = st.total_mem - size := by
  rw [freeHitStep]
  by_cases h : idx < (st.currentT.eraseIdx idx).length <;> simp [advance, h]

theorem freeHitStep_trajs (st : SimSt) (idx : Nat) (size : Int)
    (hidx : idx < st.currentT.length) :
    (freeHitStep st idx size).trajs =
      (st.currentT.drop (idx + 1)).foldl
        (fun tr q => modifyAt tr q (shiftAppend size st.timestep))
        (modifyAt st.trajs (st.currentT.getD idx 0)
          (closeAppend · st.timestep)) := by
  rw [freeHitStep]
  by_cases h : idx < (st.currentT.eraseIdx idx).length
  · simp only [if_pos h]
    simp only [advance]
    rw [eraseIdx_drop_eq _ _ hidx]
  · have hnil : (st.currentT.eraseIdx idx).drop idx = [] :=
      List.drop_eq_nil_of_le (by omega)
    have hnil2 : st.currentT.drop (idx + 1) = [] := by
      rw [← eraseIdx_drop_eq _ _ hidx]
      exact hnil
    simp only [if_neg h]
    simp only [advance, hnil2, List.foldl_nil]

theorem freeHitStep_timestep (st : SimSt) (idx : Nat) (size : Int) :
    st.timestep ≤ (freeHitStep st idx size).timestep ∧
    (st.currentT.drop (idx + 1) ≠ [] → idx < st.currentT.length →
      st.timestep + 3 ≤ (freeHitStep st idx size).timestep) := by
  rw [freeHitStep]
  by_cases h : idx < (st.currentT.eraseIdx idx).length
  · simp only [if_pos h]
    simp only [advance]
    constructor
    · omega
    · intro _ _
      omega
  · simp only [if_neg h]
    simp only [advance]
    constructor
    · omega
    · intro hne hidx
      exact absurd (by rw [← eraseIdx_drop_eq _ _ hidx]
                       exact List.drop_eq_nil_of_le (by omega)) hne

theorem freeHitStep_inv (elements : List Event) (st : SimSt) (idx e : Nat)
    (size : Int) (hInv : Inv elements st)
    (hidx : idx < st.current.length)
    (he : st.current.get? idx = some e)
    (hsize : size = (elements.getD e default).size) :
    Inv elements (freeHitStep st idx size) := by
  have hidxT : idx < st.currentT.length := by rw [hInv.len_eq]; exact hidx
  exact freeHit_fields_inv elements st idx e size _ hInv hidx he hsize
    (freeHitStep_current st idx size) (freeHitStep_currentT st idx size)
    (freeHitStep_trajs st idx size hidxT)
    (freeHitStep_total_mem st idx size)
    (freeHitStep_timestep st idx size).1
    (fun hne => (freeHitStep_timestep st idx size).2 hne hidxT)

theorem actionStep_inv (elements : List Event) (st : SimSt) (e : Nat)
    (h : Inv elements st) : Inv elements (actionStep elements st e) := by
  rw [actionStep]
  cases hf : findLastIdx st.current e with
  | none =>
      exact inv_set_max elements _ _
        (allocMissStep_inv elements st e _ rfl h)
  | some idx =>
      obtain ⟨hidx, he⟩ := findLastIdx_some_spec st.current e idx hf
      exact inv_set_max elements _ _
        (freeHitStep_inv elements st idx e _ h hidx he rfl)

theorem foldl_initStep_inv (elements : List Event) (l : List Nat) (st : SimSt)
    (h : Inv elements st) : Inv elements (l.foldl (initStep elements) st) := by
  induction l generalizing st with
  | nil => exact h
  | cons a l ih => exact ih _ (initStep_inv elements st a h)

theorem foldl_actionStep_inv (elements : List Event) (l : List Nat)
    (st : SimSt) (h : Inv elements st) :
    Inv elements (l.foldl (actionStep elements) st) := by
  induction l generalizing st with
  | nil => exact h
  | cons a l ih => exact ih _ (actionStep_inv elements st a h)

/-- The invariant holds at every prefix of the action replay. -/
theorem inv_replay (trace : List Event) (n : Nat) :
    Inv (classify trace).elements
      (((classify trace).actions.take n).foldl
        (actionStep (classify trace).elements)
        (simAfterInit (classify trace).elements
          (classify trace).initially_allocated)) :=
  foldl_actionStep_inv _ _ _
    (foldl_initStep_inv _ _ _ (inv_simInit _))

/-- Finalization only closes trajectories: every emitted trajectory is a
live trajectory closed at the final timestep, or an untouched one. -/
theorem mem_finalizeTrajs (st : SimSt) (hnd : st.currentT.Nodup) :
    ∀ t ∈ finalizeTrajs st,
      (∃ t0 ∈ st.trajs, t = closeAppend t0 st.timestep) ∨ t ∈ st.trajs := by
  intro t ht
  obtain ⟨p, hp⟩ := List.mem_iff_get?.mp ht
  rw [finalizeTrajs] at hp
  by_cases hpC : p ∈ st.currentT
  · rw [get?_foldl_modifyAt_mem _ _ _ _ hnd hpC] at hp
    obtain ⟨t0, ht0, hr⟩ := Option.map_eq_some'.mp hp
    exact Or.inl ⟨t0, List.get?_mem ht0, hr.symm⟩
  · rw [get?_foldl_modifyAt_not_mem _ _ _ _ hpC] at hp
    exact Or.inr (List.get?_mem hp)

theorem nodup_of_inv (elements : List Event) (st : SimSt)
    (h : Inv elements st) : st.currentT.Nodup :=
  h.sorted.imp fun hlt => Nat.ne_of_lt hlt

/-- The live sizes are the element sizes of the live set, positionally. -/
theorem liveSizes_eq_elemSizes (elements : List Event) (st : SimSt)
    (h : Inv elements st) :
    liveSizes st =
      st.current.map fun e => (elements.getD e default).size := by
  apply List.ext_get?
  intro k
  by_cases hk : k < st.currentT.length
  · have hk' : k < st.current.length := by rw [← h.len_eq]; exact hk
    have e1 : st.currentT.get? k = some (st.currentT.getD k 0) := by
      rw [List.getD_eq_get?, List.get?_eq_get hk]
      rfl
    have e2 : st.current.get? k = some (st.current.getD k 0) := by
      rw [List.getD_eq_get?, List.get?_eq_get hk']
      rfl
    rw [liveSizes, List.get?_map, List.get?_map, e1, e2]
    simp only [Option.map_some']
    rw [h.size_match k hk]
  · have hk' : ¬ k < st.current.length := by rw [← h.len_eq]; exact hk
    rw [liveSizes, List.get?_map, List.get?_map,
      List.get?_eq_none.mpr (by omega), List.get?_eq_none.mpr (by omega)]
    rfl

/-- C5: after the initial-allocations phase and after each processed prefix
of the action replay, `total_mem` equals the sum of the sizes of the
elements currently in the live set. -/
theorem total_mem_eq_live_sum (trace : List Event) (n : Nat) :
    (((classify trace).actions.take n).foldl
        (actionStep (classify trace).elements)
        (simAfterInit (classify trace).elements
          (classify trace).initially_allocated)).total_mem =
      ((((classify trace).actions.take n).foldl
        (actionStep (classify trace).elements)
        (simAfterInit (classify trace).elements
          (classify trace).initially_allocated)).current.map
          fun e => ((classify trace).elements.getD e default).size).sum := by
  have h := inv_replay trace n
  rw [h.mem_ok, liveSizes_eq_elemSizes _ _ h]

/-- C4: every non-summary trajectory emitted by the simulator has a
non-decreasing `timesteps` sequence. -/
theorem timesteps_monotone (trace : List Event) :
    ∀ t ∈ (process_alloc_data trace).data,
      t.timesteps.Pairwise (· ≤ ·) := by
  intro t ht
  have hlen : ((classify trace).actions.take
      (classify trace).actions.length) = (classify trace).actions :=
    List.take_length _
  have h := inv_replay trace (classify trace).actions.length
  rw [hlen] at h
  simp only [process_alloc_data] at ht
  rcases mem_finalizeTrajs _ (nodup_of_inv _ _ h) t ht with
    ⟨t0, ht0, rfl⟩ | ht'
  · exact ts_sorted_closeAppend t0 _ (h.ts_sorted t0 ht0) (h.ts_le t0 ht0)
  · exact h.ts_sorted t ht'

/-! ## Preservation of the sign invariant -/

theorem liveSizes_nonneg (elements : List Event) (st : SimSt)
    (hI : Inv elements st) (hsz : ∀ t ∈ st.trajs, 0 ≤ t.size) :
    ∀ x ∈ liveSizes st, 0 ≤ x := by
  intro x hx
  rw [liveSizes] at hx
  obtain ⟨q, hq, rfl⟩ := List.mem_map.mp hx
  exact hsz _ (getD_mem_of_lt _ _ _ (hI.bounded q hq))

theorem invN_simInit : InvN simInit := by
  refine ⟨?_, ?_, ?_⟩ <;> intro t ht <;> cases ht

theorem advance_invN (n : Nat) (st : SimSt) (h : InvN st) :
    InvN (advance n st) := ⟨h.1, h.2, h.3⟩

theorem set_max_invN (st : SimSt) (m : Int) (h : InvN st) :
    InvN { st with max_size := m } := ⟨h.1, h.2, h.3⟩

theorem appendNew_invN (elements : List Event) (st : SimSt) (e : Nat)
    (size : Int) (hI : Inv elements st) (hN : InvN st) (hsz0 : 0 ≤ size) :
    InvN
      { st with
        current := st.current ++ [e]
        currentT := st.currentT ++ [st.trajs.length]
        trajs := st.trajs ++ [(⟨e, [st.timestep], [st.total_mem], size, e⟩ : Traj)]
        total_mem := st.total_mem + size } := by
  have htm : 0 ≤ st.total_mem := by
    rw [hI.mem_ok]
    exact List.sum_nonneg (liveSizes_nonneg elements st hI hN.size_nonneg)
  refine ⟨?_, ?_, ?_⟩ <;> intro t ht <;>
    rcases List.mem_append.mp ht with ht | ht
  · exact hN.size_nonneg t ht
  · simp only [List.mem_singleton] at ht
    subst ht
    exact hsz0
  · exact hN.head_nonneg t ht
  · simp only [List.mem_singleton] at ht
    subst ht
    simpa using htm
  · exact hN.last_nonneg t ht
  · simp only [List.mem_singleton] at ht
    subst ht
    simpa [lastOffset] using htm

theorem freeHit_fields_invN (elements : List Event) (st : SimSt) (idx e : Nat)
    (size : Int) (st' : SimSt) (hInv : Inv elements st) (hN : InvN st)
    (hidx : idx < st.current.length)
    (he : st.current.get? idx = some e)
    (hsize : size = (elements.getD e default).size)
    (hcur : st'.current = st.current.eraseIdx idx)
    (hcurT : st'.currentT = st.currentT.eraseIdx idx)
    (htr : st'.trajs = (st.currentT.drop (idx + 1)).foldl
      (fun tr q => modifyAt tr q (shiftAppend size st.timestep))
      (modifyAt st.trajs (st.currentT.getD idx 0) (closeAppend · st.timestep)))
    (hmem : st'.total_mem = st.total_mem - size)
    (hts1 : st.timestep ≤ st'.timestep)
    (hts3 : st.currentT.drop (idx + 1) ≠ [] →
      st.timestep + 3 ≤ st'.timestep) :
    InvN st' := by
  have hInv' : Inv elements st' := freeHit_fields_inv elements st idx e size
    st' hInv hidx he hsize hcur hcurT htr hmem hts1 hts3
  obtain ⟨h1, h2, h3, h4, h5, h6, h7, h8, h9, h10⟩ := hInv
  have hidxT : idx < st.currentT.length := by rw [h1]; exact hidx
  set C := st.currentT with hCdef
  set j := C.getD idx 0 with hjdef
  set TAKE := C.take idx with hTdef
  set D := C.drop (idx + 1) with hDdef
  have hget : C.get? idx = some (C.get ⟨idx, hidxT⟩) := List.get?_eq_get hidxT
  have hjval : j = C.get ⟨idx, hidxT⟩ := by
    rw [hjdef, List.getD_eq_get?, hget]
    rfl
  have hCd : C = TAKE ++ j :: D := by
    conv_lhs => rw [← List.take_append_drop idx C]
    congr 1
    rw [List.drop_eq_getElem_cons hidxT]
    congr 1
    rw [hjval]
    simp [List.get_eq_getElem]
  have hnd : C.Nodup := h2.imp fun hlt => Nat.ne_of_lt hlt
  have hndDec : (TAKE ++ j :: D).Nodup := hCd ▸ hnd
  obtain ⟨hndT, hndJD, hdisj⟩ := List.nodup_append.mp hndDec
  have hjD : j ∉ D := (List.nodup_cons.mp hndJD).1
  have hndD : D.Nodup := (List.nodup_cons.mp hndJD).2
  have hE : C.eraseIdx idx = TAKE ++ D := List.eraseIdx_eq_take_drop_succ C idx
  have hszn : ∀ t ∈ st'.trajs, 0 ≤ t.size := by
    intro t ht
    obtain ⟨p, hp⟩ := List.mem_iff_get?.mp ht
    rw [htr] at hp
    by_cases hpj : j = p
    · subst hpj
      rw [combined_get?_of_eq _ _ _ _ _ hjD] at hp
      obtain ⟨t0, ht0, hr⟩ := Option.map_eq_some'.mp hp
      rw [← hr, size_closeAppend]
      exact hN.size_nonneg t0 (List.get?_mem ht0)
    · by_cases hpD : p ∈ D
      · rw [combined_get?_of_memD _ _ _ _ _ _ hndD hpD hpj] at hp
        obtain ⟨t0, ht0, hr⟩ := Option.map_eq_some'.mp hp
        rw [← hr, size_shiftAppend]
        exact hN.size_nonneg t0 (List.get?_mem ht0)
      · rw [combined_get?_of_ne _ _ _ _ _ _ hpj hpD] at hp
        exact hN.size_nonneg t (List.get?_mem hp)
  have hlive : ∀ x ∈ liveLasts st', 0 ≤ x :=
    stacked_nonneg 0 _ _ hInv'.stacked_ok le_rfl
      (liveSizes_nonneg elements st' hInv' hszn)
  refine ⟨hszn, ?_, ?_⟩
  · intro t ht
    obtain ⟨p, hp⟩ := List.mem_iff_get?.mp ht
    rw [htr] at hp
    by_cases hpj : j = p
    · subst hpj
      rw [combined_get?_of_eq _ _ _ _ _ hjD] at hp
      obtain ⟨t0, ht0, hr⟩ := Option.map_eq_some'.mp hp
      have ht0m := List.get?_mem ht0
      rw [← hr, headD_closeAppend t0 _ (h7 t0 ht0m)]
      exact hN.head_nonneg t0 ht0m
    · by_cases hpD : p ∈ D
      · rw [combined_get?_of_memD _ _ _ _ _ _ hndD hpD hpj] at hp
        obtain ⟨t0, ht0, hr⟩ := Option.map_eq_some'.mp hp
        have ht0m := List.get?_mem ht0
        rw [← hr, headD_shiftAppend _ _ t0 (h7 t0 ht0m)]
        exact hN.head_nonneg t0 ht0m
      · rw [combined_get?_of_ne _ _ _ _ _ _ hpj hpD] at hp
        exact hN.head_nonneg t (List.get?_mem hp)
  · intro t ht
    obtain ⟨p, hp⟩ := List.mem_iff_get?.mp ht
    rw [htr] at hp
    by_cases hpj : j = p
    · subst hpj
      rw [combined_get?_of_eq _ _ _ _ _ hjD] at hp
      obtain ⟨t0, ht0, hr⟩ := Option.map_eq_some'.mp hp
      rw [← hr, lastOffset_closeAppend]
      exact hN.last_nonneg t0 (List.get?_mem ht0)
    · by_cases hpD : p ∈ D
      · -- a shifted live entry: its new last offset is a packed-layout
        -- entry of the post-state, hence non-negative
        have hpget : st'.trajs.get? p =
            (st.trajs.get? p).map (shiftAppend size st.timestep) := by
          rw [htr]
          exact combined_get?_of_memD _ _ _ _ _ _ hndD hpD hpj
        have hgetD : st'.trajs.getD p default = t := by
          rw [List.getD_eq_get?, htr, hp]
          rfl
        have hpC' : p ∈ st'.currentT := by
          rw [hcurT, hE]
          exact List.mem_append.mpr (Or.inr hpD)
        have hmemL : lastOffset (st'.trajs.getD p default) ∈ liveLasts st' :=
          List.mem_map_of_mem _ hpC'
        rw [← hgetD]
        exact hlive _ hmemL
      · rw [combined_get?_of_ne _ _ _ _ _ _ hpj hpD] at hp
        exact hN.last_nonneg t (List.get?_mem hp)

theorem freeHitStep_invN (elements : List Event) (st : SimSt) (idx e : Nat)
    (size : Int) (hInv : Inv elements st) (hN : InvN st)
    (hidx : idx < st.current.length)
    (he : st.current.get? idx = some e)
    (hsize : size = (elements.getD e default).size) :
    InvN (freeHitStep st idx size) := by
  have hidxT : idx < st.currentT.length := by rw [hInv.len_eq]; exact hidx
  exact freeHit_fields_invN elements st idx e size _ hInv hN hidx he hsize
    (freeHitStep_current st idx size) (freeHitStep_currentT st idx size)
    (freeHitStep_trajs st idx size hidxT)
    (freeHitStep_total_mem st idx size)
    (freeHitStep_timestep st idx size).1
    (fun hne => (freeHitStep_timestep st idx size).2 hne hidxT)

theorem initStep_invN (elements : List Event) (st : SimSt) (e : Nat)
    (hI : Inv elements st) (hN : InvN st)
    (hsz : ∀ k, 0 ≤ (elements.getD k default).size) :
    InvN (initStep elements st e) :=
  appendNew_invN elements st e _ hI hN (hsz e)

theorem actionStep_invN (elements : List Event) (st : SimSt) (e : Nat)
    (hI : Inv elements st) (hN : InvN st)
    (hsz : ∀ k, 0 ≤ (elements.getD k default).size) :
    InvN (actionStep elements st e) := by
  rw [actionStep]
  cases hf : findLastIdx st.current e with
  | none =>
      exact set_max_invN _ _ (advance_invN 1 _
        (appendNew_invN elements st e _ hI hN (hsz e)))
  | some idx =>
      obtain ⟨hidx, he⟩ := findLastIdx_some_spec st.current e idx hf
      exact set_max_invN _ _
        (freeHitStep_invN elements st idx e _ hI hN hidx he rfl)

theorem foldl_initStep_invN (elements : List Event) (l : List Nat)
    (st : SimSt) (hI : Inv elements st) (hN : InvN st)
    (hsz : ∀ k, 0 ≤ (elements.getD k default).size) :
    InvN (l.foldl (initStep elements) st) := by
  induction l generalizing st with
  | nil => exact hN
  | cons a l ih =>
      exact ih _ (initStep_inv elements st a hI)
        (initStep_invN elements st a hI hN hsz)

theorem foldl_actionStep_invN (elements : List Event) (l : List Nat)
    (st : SimSt) (hI : Inv elements st) (hN : InvN st)
    (hsz : ∀ k, 0 ≤ (elements.getD k default).size) :
    InvN (l.foldl (actionStep elements) st) := by
  induction l generalizing st with
  | nil => exact hN
  | cons a l ih =>
      exact ih _ (actionStep_inv elements st a hI)
        (actionStep_invN elements st a hI hN hsz)

/-- Every element the classifier collects is an event of the input trace. -/
theorem classifyFrom_elements_subset (trace : List Event) (st : ClassSt) :
    ∀ ev ∈ (classifyFrom st trace).elements, ev ∈ st.elements ∨ ev ∈ trace := by
  induction trace generalizing st with
  | nil => exact fun ev h => Or.inl h
  | cons a l ih =>
      intro ev hev
      have step : ∀ x ∈ (classStep st a).elements,
          x ∈ st.elements ∨ x = a := by
        intro x hx
        rw [classStep] at hx
        split at hx
        · rcases List.mem_append.mp hx with h | h
          · exact Or.inl h
          · simp only [List.mem_singleton] at h
            exact Or.inr h
        · split at hx
          · split at hx
            · exact Or.inl hx
            · rcases List.mem_append.mp hx with h | h
              · exact Or.inl h
              · simp only [List.mem_singleton] at h
                exact Or.inr h
          · exact Or.inl hx
      rcases ih (classStep st a) ev hev with h | h
      · rcases step ev h with h' | h'
        · exact Or.inl h'
        · exact Or.inr (h' ▸ List.mem_cons_self a l)
      · exact Or.inr (List.mem_cons_of_mem a h)

/-- C3: on a trace whose event sizes are all non-negative, every emitted
non-summary trajectory has non-negative first and last offsets. -/
theorem offsets_first_last_nonneg (trace : List Event)
    (hsz : ∀ ev ∈ trace, 0 ≤ ev.size) :
    ∀ t ∈ (process_alloc_data trace).data,
      0 ≤ t.offsets.headD 0 ∧ 0 ≤ t.offsets.getLastD 0 := by
  have helems : ∀ k, 0 ≤ ((classify trace).elements.getD k default).size := by
    intro k
    by_cases hk : k < (classify trace).elements.length
    · have hmem := getD_mem_of_lt (classify trace).elements k default hk
      rcases classifyFrom_elements_subset trace _ _ hmem with h | h
      · cases h
      · exact hsz _ h
    · rw [List.getD_eq_default _ _ (by omega)]
      decide
  have hI0 := foldl_initStep_inv (classify trace).elements
    (classify trace).initially_allocated.reverse simInit
    (inv_simInit _)
  have hN0 := foldl_initStep_invN (classify trace).elements
    (classify trace).initially_allocated.reverse simInit
    (inv_simInit _) invN_simInit helems
  have hI := foldl_actionStep_inv (classify trace).elements
    (classify trace).actions _ hI0
  have hN := foldl_actionStep_invN (classify trace).elements
    (classify trace).actions _ hI0 hN0 helems
  intro t ht
  simp only [process_alloc_data] at ht
  rcases mem_finalizeTrajs _ (nodup_of_inv _ _ hI) t ht with
    ⟨t0, ht0, rfl⟩ | ht'
  · constructor
    · rw [headD_closeAppend t0 _ (hI.off_ne t0 ht0)]
      exact hN.head_nonneg t0 ht0
    · have := lastOffset_closeAppend t0
        ((classify trace).actions.foldl
          (actionStep (classify trace).elements)
          (((classify trace).initially_allocated.reverse).foldl
            (initStep (classify trace).elements) simInit)).timestep
      rw [lastOffset] at this
      rw [this]
      exact hN.last_nonneg t0 ht0
  · exact ⟨hN.head_nonneg t ht', hN.last_nonneg t ht'⟩

/-! ## Classifier invariant (for the matched-free count property) -/

theorem lookupAddr_some_mem (m : List (Int × Nat)) (a : Int) (i : Nat)
    (h : lookupAddr m a = some i) : (a, i) ∈ m := by
  rw [lookupAddr] at h
  obtain ⟨q, hfind, hsnd⟩ := Option.map_eq_some'.mp h
  have hmem := List.mem_of_find?_eq_some hfind
  have hkey0 := List.find?_some hfind
  simp only [decide_eq_true_eq] at hkey0
  have hkey : q.1 = a := hkey0
  have hq : q = (a, i) := by
    obtain ⟨q1, q2⟩ := q
    simp only at hkey hsnd
    rw [hkey, hsnd]
  exact hq ▸ hmem

theorem count_append_ne (l : List Nat) (x i : Nat) (h : ¬ x = i) :
    (l ++ [x]).count i = l.count i := by
  rw [List.count_append]
  have hz : ([x].count i) = 0 := by
    rw [List.count_eq_zero]
    simp only [List.mem_singleton]
    exact fun hh => h hh.symm
  omega

theorem count_append_self (l : List Nat) (i : Nat) :
    (l ++ [i]).count i = l.count i + 1 := by
  simp

/-- Classifier invariant: map values are in-bounds element indices, each
occurring exactly once in `actions` so far; map values are pairwise
distinct; all recorded actions are in-bounds. -/
structure InvC (st : ClassSt) : Prop where
  vals_lt : ∀ p ∈ st.addr_to_alloc, p.2 < st.elements.length
  vals_count : ∀ p ∈ st.addr_to_alloc, st.actions.count p.2 = 1
  vals_nodup : (st.addr_to_alloc.map Prod.snd).Nodup
  acts_lt : ∀ i ∈ st.actions, i < st.elements.length

theorem eraseAddr_subset (m : List (Int × Nat)) (a : Int) :
    ∀ p ∈ eraseAddr m a, p ∈ m := fun p hp => List.mem_of_mem_filter hp

theorem eraseAddr_sublist_vals (m : List (Int × Nat)) (a : Int) :
    List.Sublist ((eraseAddr m a).map Prod.snd) (m.map Prod.snd) :=
  (List.filter_sublist m).map Prod.snd

theorem classStep_invC (st : ClassSt) (ev : Event) (h : InvC st) :
    InvC (classStep st ev) := by
  obtain ⟨h1, h2, h3, h4⟩ := h
  rw [classStep]
  split
  · -- alloc: fresh index st.elements.length enters the map and actions
    refine ⟨?_, ?_, ?_, ?_⟩
    · intro p hp
      simp only [List.length_append, List.length_cons, List.length_nil]
      rcases List.mem_append.mp hp with hp | hp
      · have := h1 p (eraseAddr_subset _ _ p hp)
        omega
      · simp only [List.mem_singleton] at hp
        subst hp
        omega
    · intro p hp
      rcases List.mem_append.mp hp with hp | hp
      · have hlt := h1 p (eraseAddr_subset _ _ p hp)
        rw [count_append_ne _ _ _ (by omega)]
        exact h2 p (eraseAddr_subset _ _ p hp)
      · simp only [List.mem_singleton] at hp
        subst hp
        dsimp only
        rw [count_append_self]
        have : st.actions.count st.elements.length = 0 := by
          rw [List.count_eq_zero]
          intro hmem
          exact absurd (h4 _ hmem) (lt_irrefl _)
        omega
    · show ((insertAddr st.addr_to_alloc ev.addr
        st.elements.length).map Prod.snd).Nodup
      rw [insertAddr, List.map_append, List.nodup_append]
      refine ⟨(eraseAddr_sublist_vals _ _).nodup h3, List.nodup_singleton _, ?_⟩
      intro v hv
      simp only [List.map_cons, List.map_nil, List.mem_singleton]
      obtain ⟨p, hp, rfl⟩ := List.mem_map.mp hv
      have := h1 p (eraseAddr_subset _ _ p hp)
      omega
    · intro i hi
      simp only [List.length_append, List.length_cons, List.length_nil]
      rcases List.mem_append.mp hi with hi | hi
      · have := h4 i hi
        omega
      · simp only [List.mem_singleton] at hi
        omega
  · split
    · -- free / free_completed
      cases hl : lookupAddr st.addr_to_alloc ev.addr with
      | some i =>
          have hmem := lookupAddr_some_mem _ _ _ hl
          dsimp only
          refine ⟨?_, ?_, ?_, ?_⟩
          · intro p hp
            exact h1 p (eraseAddr_subset _ _ p hp)
          · intro p hp
            have hpm := eraseAddr_subset _ _ p hp
            have hpk : ¬ p.1 = ev.addr := by
              have := List.of_mem_filter hp
              simpa using this
            have hpi : ¬ p.2 = i := by
              intro hpi
              have hpq := List.inj_on_of_nodup_map h3 hpm hmem
                (show Prod.snd p = Prod.snd (ev.addr, i) by simpa using hpi)
              rw [hpq] at hpk
              exact hpk rfl
            show ((st.actions ++ [i]).count p.2) = 1
            rw [count_append_ne _ _ _ (fun hh => hpi hh.symm)]
            exact h2 p hpm
          · exact (eraseAddr_sublist_vals _ _).nodup h3
          · intro x hx
            rcases List.mem_append.mp hx with hx | hx
            · exact h4 x hx
            · simp only [List.mem_singleton] at hx
              subst hx
              exact h1 _ hmem
      | none =>
          -- orphan free: fresh synthetic element
          dsimp only
          refine ⟨?_, ?_, ?_, ?_⟩
          · intro p hp
            simp only [List.length_append, List.length_cons, List.length_nil]
            have := h1 p hp
            omega
          · intro p hp
            have := h1 p hp
            rw [count_append_ne _ _ _ (by omega)]
            exact h2 p hp
          · exact h3
          · intro x hx
            simp only [List.length_append, List.length_cons, List.length_nil]
            rcases List.mem_append.mp hx with hx | hx
            · have := h4 x hx
              omega
            · simp only [List.mem_singleton] at hx
              omega
    · exact ⟨h1, h2, h3, h4⟩

theorem classifyFrom_invC (trace : List Event) (st : ClassSt)
    (h : InvC st) : InvC (classifyFrom st trace) := by
  induction trace generalizing st with
  | nil => exact h
  | cons a l ih => exact ih _ (classStep_invC st a h)

theorem classify_invC (trace : List Event) : InvC (classify trace) :=
  classifyFrom_invC trace _ ⟨fun p hp => absurd hp (List.not_mem_nil p),
    fun p hp => absurd hp (List.not_mem_nil p), List.Pairwise.nil,
    fun i hi => absurd hi (List.not_mem_nil i)⟩

/-- Once an index is out of the map and in-bounds, later classification
steps never append it to `actions` again. -/
theorem classifyFrom_count_frozen (rest : List Event) (st : ClassSt) (i : Nat)
    (hlt : i < st.elements.length)
    (hvals : ∀ p ∈ st.addr_to_alloc, ¬ p.2 = i) :
    (classifyFrom st rest).actions.count i = st.actions.count i := by
  induction rest generalizing st with
  | nil => rfl
  | cons a l ih =>
      have hstep : (classStep st a).actions.count i = st.actions.count i ∧
          i < (classStep st a).elements.length ∧
          ∀ p ∈ (classStep st a).addr_to_alloc, ¬ p.2 = i := by
        rw [classStep]
        split
        · refine ⟨count_append_ne _ _ _ (by omega), ?_, ?_⟩
          · simp only [List.length_append, List.length_cons, List.length_nil]
            omega
          · intro p hp
            rcases List.mem_append.mp hp with hp | hp
            · exact hvals p (eraseAddr_subset _ _ p hp)
            · simp only [List.mem_singleton] at hp
              subst hp
              dsimp only
              omega
        · split
          · cases hl : lookupAddr st.addr_to_alloc a.addr with
            | some v =>
                have hmem := lookupAddr_some_mem _ _ _ hl
                dsimp only
                refine ⟨count_append_ne _ _ _ (hvals _ hmem), hlt, ?_⟩
                intro p hp
                exact hvals p (eraseAddr_subset _ _ p hp)
            | none =>
                dsimp only
                refine ⟨count_append_ne _ _ _ (by omega), ?_, hvals⟩
                simp only [List.length_append, List.length_cons,
                  List.length_nil]
                omega
          · exact ⟨rfl, hlt, hvals⟩
      rw [classifyFrom, List.foldl_cons, ← classifyFrom,
        ih (classStep st a) hstep.2.1 hstep.2.2, hstep.1]

theorem classify_take_succ (tr : List Event) (k : Nat)
    (hk : k < tr.length) :
    classify (tr.take (k + 1)) =
      classStep (classify (tr.take k)) (tr.getD k default) := by
  have h1 : tr[k]? = some (tr.getD k default) := by
    rw [List.getElem?_eq_getElem hk, List.getD_eq_getElem?_getD,
      List.getElem?_eq_getElem hk]
    rfl
  rw [classify, classify, classifyFrom, classifyFrom, List.take_succ,
    List.foldl_append, h1]
  rfl

theorem classify_append (l1 l2 : List Event) :
    classify (l1 ++ l2) = classifyFrom (classify l1) l2 := by
  rw [classify, classify, classifyFrom, classifyFrom, classifyFrom,
    List.foldl_append]

/-- C6: a free / free_completed event whose address is in the live-address
map appends the mapped element index to `actions` and deletes the map
entry, and that matched index then occurs exactly twice in the final
`actions` (once from its alloc, once from this free); a free whose address
is absent appends the event as a new element, records its index in
`initially_allocated`, and appends that index to `actions`. -/
theorem classifier_free_behavior (tr : List Event) (k i : Nat)
    (hk : k < tr.length)
    (hfree : (tr.getD k default).action = "free" ∨
      (tr.getD k default).action = "free_completed") :
    (lookupAddr (classify (tr.take k)).addr_to_alloc
        (tr.getD k default).addr = some i →
      classify (tr.take (k + 1)) =
        { classify (tr.take k) with
          actions := (classify (tr.take k)).actions ++ [i]
          addr_to_alloc := eraseAddr (classify (tr.take k)).addr_to_alloc
            (tr.getD k default).addr } ∧
      (classify tr).actions.count i = 2) ∧
    (lookupAddr (classify (tr.take k)).addr_to_alloc
        (tr.getD k default).addr = none →
      classify (tr.take (k + 1)) =
        { classify (tr.take k) with
          elements := (classify (tr.take k)).elements ++ [tr.getD k default]
          initially_allocated :=
            (classify (tr.take k)).initially_allocated ++
              [(classify (tr.take k)).elements.length]
          actions := (classify (tr.take k)).actions ++
            [(classify (tr.take k)).elements.length] }) := by
  have hne : ¬ (tr.getD k default).action = "alloc" := by
    rcases hfree with h | h <;> rw [h] <;> decide
  have hstep := classify_take_succ tr k hk
  constructor
  · intro hl
    have hstep' : classify (tr.take (k + 1)) =
        { classify (tr.take k) with
          actions := (classify (tr.take k)).actions ++ [i]
          addr_to_alloc := eraseAddr (classify (tr.take k)).addr_to_alloc
            (tr.getD k default).addr } := by
      rw [hstep, classStep, if_neg hne, if_pos hfree, hl]
    refine ⟨hstep', ?_⟩
    have hInvC := classify_invC (tr.take k)
    have hmem := lookupAddr_some_mem _ _ _ hl
    have hc1 : (classify (tr.take k)).actions.count i = 1 :=
      hInvC.vals_count _ hmem
    have hlt : i < (classify (tr.take k)).elements.length :=
      hInvC.vals_lt _ hmem
    have hc2 : (classify (tr.take (k + 1))).actions.count i = 2 := by
      rw [hstep']
      dsimp only
      rw [count_append_self, hc1]
    have hvals' : ∀ p ∈ (classify (tr.take (k + 1))).addr_to_alloc,
        ¬ p.2 = i := by
      rw [hstep']
      dsimp only
      intro p hp hpi
      have hpm := eraseAddr_subset _ _ p hp
      have hpk : ¬ p.1 = (tr.getD k default).addr := by
        simpa using List.of_mem_filter hp
      have hpq := List.inj_on_of_nodup_map hInvC.vals_nodup hpm hmem
        (show Prod.snd p = Prod.snd ((tr.getD k default).addr, i) by
          simpa using hpi)
      rw [hpq] at hpk
      exact hpk rfl
    have hlt' : i < (classify (tr.take (k + 1))).elements.length := by
      rw [hstep']
      exact hlt
    have hsplit : classify tr =
        classifyFrom (classify (tr.take (k + 1))) (tr.drop (k + 1)) := by
      conv_lhs => rw [← List.take_append_drop (k + 1) tr]
      exact classify_append _ _
    rw [hsplit, classifyFrom_count_frozen _ _ _ hlt' hvals', hc2]
  · intro hl
    rw [hstep, classStep, if_neg hne, if_pos hfree, hl]

/-- Recursive form of the row construction, for induction. -/
def rowsAux (n : Nat) : List (Traj × Event) → Option (List Row)
  | [] => some []
  | (a, e) :: rest =>
      match insert_data n a e with
      | none => none
      | some r => (rowsAux (n + 1) rest).map (r :: ·)

theorem enumFrom_mapM_eq_rowsAux (l : List (Traj × Event)) (n : Nat) :
    ((l.enumFrom n).mapM fun p => insert_data p.1 p.2.1 p.2.2) = rowsAux n l := by
  induction l generalizing n with
  | nil => rfl
  | cons pe rest ih =>
      obtain ⟨a, e⟩ := pe
      simp only [List.enumFrom, List.mapM_cons, rowsAux, ih]
      cases insert_data n a e with
      | none => rfl
      | some r =>
          cases rowsAux (n + 1) rest with
          | none => rfl
          | some rs => rfl

theorem makeDbRows_eq_rowsAux (allocs : List Traj) (elems : List Event) :
    makeDbRows allocs elems = rowsAux 0 (allocs.zip elems) := by
  rw [makeDbRows, List.enum]
  exact enumFrom_mapM_eq_rowsAux (allocs.zip elems) 0

theorem rowsAux_isSome_iff (l : List (Traj × Event)) (n : Nat) :
    (rowsAux n l).isSome ↔ ∀ p ∈ l, p.2.frames.isSome := by
  induction l generalizing n with
  | nil => simp [rowsAux]
  | cons pe rest ih =>
      obtain ⟨a, e⟩ := pe
      cases hfr : e.frames with
      | none => simp [rowsAux, insert_data, hfr]
      | some fr =>
          simp only [rowsAux, insert_data, hfr, Option.map_some']
          cases hrest : rowsAux (n + 1) rest with
          | none =>
              have hr := ih (n + 1)
              rw [hrest] at hr
              simp only [Option.isSome_none, Bool.false_eq_true, false_iff] at hr
              simp only [Option.map_none', Option.isSome_none,
                Bool.false_eq_true, false_iff, List.mem_cons]
              intro hall
              exact hr fun p hp => hall p (Or.inr hp)
          | some rs =>
              have := ih (n + 1)
              rw [hrest] at this
              simp only [Option.isSome_some, true_iff] at this
              simp only [Option.map_some', Option.isSome_some, true_iff]
              intro p hp
              rcases List.mem_cons.mp hp with h | h
              · subst h; simp [hfr]
              · exact this p h

theorem rowsAux_get (l : List (Traj × Event)) (n : Nat) (rows : List Row)
    (h : rowsAux n l = some rows) :
    rows.length = l.length ∧
    ∀ k, k < l.length →
      ∃ a e fr, l.get? k = some (a, e) ∧ e.frames = some fr ∧
        rows.get? k = some ⟨n + k, a.size, a.timesteps.headD 0,
          a.timesteps.getLastD 0, format_callstack fr⟩ := by
  induction l generalizing n rows with
  | nil =>
      simp only [rowsAux, Option.some_inj] at h
      subst h
      exact ⟨rfl, by intro k hk; cases hk⟩
  | cons pe rest ih =>
      obtain ⟨a, e⟩ := pe
      cases hfr : e.frames with
      | none => simp [rowsAux, insert_data, hfr] at h
      | some fr =>
          simp only [rowsAux, insert_data, hfr, Option.map_some'] at h
          cases hrest : rowsAux (n + 1) rest with
          | none => rw [hrest] at h; cases h
          | some rs =>
              rw [hrest] at h
              simp only [Option.map_some', Option.some_inj] at h
              subst h
              obtain ⟨hlen, hget⟩ := ih (n + 1) rs hrest
              refine ⟨by simp [hlen], ?_⟩
              intro k hk
              cases k with
              | zero =>
                  refine ⟨a, e, fr, rfl, hfr, ?_⟩
                  rw [List.get?_cons_zero, Nat.add_zero]
              | succ k' =>
                  obtain ⟨a', e', fr', h1, h2, h3⟩ :=
                    hget k' (by simpa using hk)
                  refine ⟨a', e', fr', h1, h2, ?_⟩
                  rw [List.get?_cons_succ]
                  have hnk : n + 1 + k' = n + (k' + 1) := by omega
                  rw [hnk] at h3
                  exact h3

/-! ## Concrete scenario inputs -/

instance : Inhabited Frame := ⟨⟨"", 0, ""⟩⟩

/-- An `alloc` event with empty frames. -/
def mkAlloc (a s : Int) : Event := ⟨"alloc", a, s, some []⟩

/-- A `free` event with empty frames. -/
def mkFree (a s : Int) : Event := ⟨"free", a, s, some []⟩

/-- Scenario S4: `[alloc(addr=1,size=10), alloc(addr=2,size=20), free(addr=1)]`. -/
def s4Trace : List Event := [mkAlloc 1 10, mkAlloc 2 20, mkFree 1 10]

/-! ## Theorems -/

/-- C8: `format_callstack` newline-joins lines where the `i`-th line is
exactly `(i) {filename}:{line}:{name}`; the empty frame list yields the
empty string; the two-frame instance renders exactly as specified. -/
theorem format_callstack_lines :
    (∀ frames : List Frame, ∃ lines : List String,
      format_callstack frames = String.intercalate "\n" lines ∧
      lines.length = frames.length ∧
      ∀ i : Fin frames.length,
        lines.getD i "" =
          s!"({(i : Nat)}) {(frames.get i).filename}:{(frames.get i).line}:{(frames.get i).name}") ∧
    format_callstack [] = "" ∧
    format_callstack [⟨"a.c", 1, "f"⟩, ⟨"b.c", 2, "g"⟩] =
      "(0) a.c:1:f\n(1) b.c:2:g" := by
  refine ⟨?_, rfl, rfl⟩
  intro frames
  refine ⟨frames.enum.map format_frame, rfl, by simp, ?_⟩
  intro i
  have h1 : (frames.enum.map format_frame).get? (i : Nat) =
      some (format_frame ((i : Nat), frames.get i)) := by
    rw [List.get?_map, List.get?_enum, List.get?_eq_get i.isLt]
    rfl
  rw [List.getD_eq_get?, h1]
  rfl

/-- C7 counterexample: on a one-device snapshot with a non-empty trace and
`device_id = -2`, `get_trace` neither reports one of the two described
failures nor returns the chosen device's events: the range check only
tests `device_id >= len`, and `trace[-2]` raises an uncaught `IndexError`. -/
theorem get_trace_otherwise_refuted :
    get_trace [[mkAlloc 1 2]] (-2) = .indexError ∧
    (get_trace [[mkAlloc 1 2]] (-2)).isOk = false ∧
    ¬ (List.length [[mkAlloc 1 2]] : Int) ≤ -2 := by
  decide

/-- C7 amended: `get_trace` fails (exit code 1) with the out-of-range
message (carrying `0` for one device, else `0 ~ N-1`) when
`device_id >= N`; for `0 <= device_id < N` it fails (exit code 1) with the
message enumerating the indices of devices with non-empty traces when the
chosen trace is empty, and otherwise returns the chosen device's event
sequence.  Negative ids are not range-checked (see the negative-index
theorem); below `-N` an uncaught `IndexError` escapes. -/
theorem get_trace_behavior (traces : List (List Event)) (id : Int) :
    ((traces.length : Int) ≤ id →
      get_trace traces id =
        .deviceOutOfRange
          (if traces.length = 1 then "0" else s!"0 ~ {traces.length - 1}") id ∧
      (get_trace traces id).exitCode = 1) ∧
    (0 ≤ id → id < (traces.length : Int) →
      (traces.getD id.toNat [] = [] →
        get_trace traces id =
          .emptyDevice id
            ((traces.enum.filter fun p => 0 < p.2.length).map Prod.fst) ∧
        (get_trace traces id).exitCode = 1) ∧
      (traces.getD id.toNat [] ≠ [] →
        get_trace traces id = .ok (traces.getD id.toNat []))) ∧
    (id < -(traces.length : Int) → get_trace traces id = .indexError) := by
  refine ⟨?_, ?_, ?_⟩
  · intro h
    rw [get_trace, if_pos h]
    exact ⟨rfl, rfl⟩
  · intro h0 hlt
    have hnotle : ¬ (traces.length : Int) ≤ id := by omega
    have htn : id.toNat < traces.length := by omega
    have hpy : pyGet traces id = some (traces.getD id.toNat []) := by
      rw [pyGet, if_pos h0, List.get?_eq_get htn, List.getD_eq_get?,
        List.get?_eq_get htn]
      rfl
    constructor
    · intro hemp
      simp only [get_trace, if_neg hnotle, hpy, hemp, List.length_nil,
        if_pos rfl]
      exact ⟨rfl, rfl⟩
    · intro hne
      have : ¬ (traces.getD id.toNat []).length = 0 := by
        simpa [List.length_eq_zero] using hne
      simp only [get_trace, if_neg hnotle, hpy, if_neg this]
  · intro h
    have hnotle : ¬ (traces.length : Int) ≤ id := by omega
    have h0 : ¬ (0 : Int) ≤ id := by omega
    have h2 : ¬ (-id) ≤ (traces.length : Int) := by omega
    rw [get_trace, if_neg hnotle, pyGet, if_neg h0, if_neg h2]

/-- C7 witness: the amended behavior at concrete inputs — out-of-range id 2
on a two-device snapshot, empty device 0, non-empty device 1, and id `-3`
below `-N`. -/
theorem get_trace_behavior_witness :
    get_trace [[], [mkAlloc 1 2]] 2 = .deviceOutOfRange "0 ~ 1" 2 ∧
    get_trace [[], [mkAlloc 1 2]] 0 = .emptyDevice 0 [1] ∧
    get_trace [[], [mkAlloc 1 2]] 1 = .ok [mkAlloc 1 2] ∧
    get_trace [[], [mkAlloc 1 2]] (-3) = .indexError := by
  refine ⟨?_, ?_, ?_, ?_⟩
  · exact ((get_trace_behavior [[], [mkAlloc 1 2]] 2).1 (by decide)).1
  · exact (((get_trace_behavior [[], [mkAlloc 1 2]] 0).2.1 (by decide)
      (by decide)).1 (by decide)).1
  · exact ((get_trace_behavior [[], [mkAlloc 1 2]] 1).2.1 (by decide)
      (by decide)).2 (by decide)
  · exact (get_trace_behavior [[], [mkAlloc 1 2]] (-3)).2.2 (by decide)

/-- C9: a negative `device_id` in `[-N, -1]` passes the only range check
(`device_id >= N`); `get_trace` then returns the trace of device
`N + device_id` (Python negative indexing) or fails with the empty-device
message for that other device — never with the out-of-range error. -/
theorem get_trace_negative_id_accepted (traces : List (List Event)) (id : Int)
    (h1 : -(traces.length : Int) ≤ id) (h2 : id ≤ -1) :
    ((get_trace traces id).exitCode = 0 ∨
      (∃ req devs, get_trace traces id = .emptyDevice req devs)) ∧
    (traces.getD ((traces.length : Int) + id).toNat [] ≠ [] →
      get_trace traces id =
        .ok (traces.getD ((traces.length : Int) + id).toNat [])) := by
  have hnotle : ¬ (traces.length : Int) ≤ id := by omega
  have h0 : ¬ (0 : Int) ≤ id := by omega
  have hneg : (-id) ≤ (traces.length : Int) := by omega
  have hk : traces.length - (-id).toNat = ((traces.length : Int) + id).toNat := by
    omega
  have hlt : ((traces.length : Int) + id).toNat < traces.length := by omega
  have hpy : pyGet traces id =
      some (traces.getD ((traces.length : Int) + id).toNat []) := by
    rw [pyGet, if_neg h0, if_pos hneg, hk, List.get?_eq_get hlt,
      List.getD_eq_get?, List.get?_eq_get hlt]
    rfl
  constructor
  · by_cases hz : (traces.getD ((traces.length : Int) + id).toNat []).length = 0
    · have heq : get_trace traces id =
          .emptyDevice id
            ((traces.enum.filter fun p => 0 < p.2.length).map Prod.fst) := by
        simp only [get_trace, if_neg hnotle, hpy, if_pos hz]
      exact Or.inr ⟨_, _, heq⟩
    · refine Or.inl ?_
      simp only [get_trace, if_neg hnotle, hpy, if_neg hz]
      rfl
  · intro h3
    have : ¬ (traces.getD ((traces.length : Int) + id).toNat []).length = 0 := by
      simpa [List.length_eq_zero] using h3
    simp only [get_trace, if_neg hnotle, hpy, if_neg this]

/-- C9 witness: on a two-device snapshot, `device_id = -1` is accepted and
returns the trace of device `1`. -/
theorem get_trace_negative_id_accepted_witness :
    get_trace [[], [mkAlloc 1 2]] (-1) = .ok [mkAlloc 1 2] := by
  exact (get_trace_negative_id_accepted [[], [mkAlloc 1 2]] (-1)
    (by decide) (by decide)).2 (by decide)

/-- C4 witness: trajectory 0 of the stack-shift scenario has non-decreasing
timesteps. -/
theorem timesteps_monotone_witness :
    (Traj.mk 0 [0, 2] [0, 0] 10 0).timesteps.Pairwise (· ≤ ·) :=
  timesteps_monotone s4Trace _ (by decide)

/-- C10: building the rows evaluates `elem["frames"]` unconditionally, so
(with the pipeline's equal-length `allocs`/`elems`) the writer produces its
rows iff every element — synthetic orphan-free placeholders included —
carries `frames`; concretely, the pipeline output of a trace whose orphan
free lacks `frames` makes the writer fail. -/
theorem writer_requires_frames (allocs : List Traj) (elems : List Event)
    (hlen : allocs.length = elems.length) :
    ((makeDbRows allocs elems).isSome ↔ ∀ e ∈ elems, e.frames.isSome) ∧
    makeDbRows (process_alloc_data [mkAlloc 1 10, ⟨"free", 2, 5, none⟩]).data
      (process_alloc_data [mkAlloc 1 10, ⟨"free", 2, 5, none⟩]).elements =
      none := by
  refine ⟨?_, by decide⟩
  rw [makeDbRows_eq_rowsAux, rowsAux_isSome_iff]
  constructor
  · intro h e he
    obtain ⟨i, hi⟩ := List.mem_iff_get.mp he
    have hiz : (i : Nat) < (allocs.zip elems).length := by
      rw [List.length_zip]
      omega
    have hmem := h ((allocs.zip elems).get ⟨i, hiz⟩)
      (List.get_mem _ _ _)
    rw [List.get_zip] at hmem
    rw [← hi]
    simpa using hmem
  · intro h p hp
    exact h p.2 (List.of_mem_zip hp).2

/-- C10 witness: a two-element instance with equal lengths, one element per
kind of `frames`. -/
theorem writer_requires_frames_witness :
    (makeDbRows [⟨0, [0], [0], 1, 0⟩] [mkAlloc 1 1]).isSome ↔
      ∀ e ∈ [mkAlloc 1 1], e.frames.isSome :=
  (writer_requires_frames [⟨0, [0], [0], 1, 0⟩] [mkAlloc 1 1] (by decide)).1

/-- C1 counterexample: on `[alloc(addr=1,size=10), free(addr=2,size=5)]` the
orphan free is processed first (reverse insertion order), so the trajectory
array is `[traj of elem 1, traj of elem 0]` while rows pair positionally;
row 0 has `size = 5` but the only trajectory with `elem = 0` has size 10:
no trajectory matches row 0 in all claimed fields. -/
theorem db_row_elem_mismatch :
    makeDbRows (process_alloc_data [mkAlloc 1 10, mkFree 2 5]).data
        (process_alloc_data [mkAlloc 1 10, mkFree 2 5]).elements =
      some [⟨0, 5, 0, 1, ""⟩, ⟨1, 10, 0, 5, ""⟩] ∧
    ¬ ∃ t ∈ (process_alloc_data [mkAlloc 1 10, mkFree 2 5]).data,
        t.elem = 0 ∧ t.size = (5 : Int) ∧ t.timesteps.headD 0 = 0 ∧
          t.timesteps.getLastD 0 = 1 := by
  decide

/-- C1 amended: for every device trace on which the writer succeeds, every
row `r` (at position `i = r.idx`) is derived from the trajectory at
position `i` of the emitted array (summary excluded): `r.size = t.size`,
`r.start_time = t.timesteps[0]`, `r.end_time = t.timesteps[-1]` — but
`t.elem = r.idx` need not hold when orphan frees reorder creation. -/
theorem db_rows_match_trajectories (trace : List Event) (rows : List Row)
    (h : makeDbRows (process_alloc_data trace).data
        (process_alloc_data trace).elements = some rows) :
    ∀ i, i < rows.length →
      ∃ t, (process_alloc_data trace).data.get? i = some t ∧
        (rows.getD i default).idx = i ∧
        (rows.getD i default).size = t.size ∧
        (rows.getD i default).start_time = t.timesteps.headD 0 ∧
        (rows.getD i default).end_time = t.timesteps.getLastD 0 := by
  rw [makeDbRows_eq_rowsAux] at h
  obtain ⟨hlen, hget⟩ := rowsAux_get _ 0 rows h
  intro i hi
  obtain ⟨a, e, fr, h1, h2, h3⟩ := hget i (hlen ▸ hi)
  have hda : (process_alloc_data trace).data.get? i = some a :=
    ((List.get?_zip_eq_some _ _ _ _).mp h1).1
  have hrow : rows.getD i default =
      ⟨0 + i, a.size, a.timesteps.headD 0, a.timesteps.getLastD 0,
        format_callstack fr⟩ := by
    rw [List.getD_eq_get?, h3]
    rfl
  exact ⟨a, hda, by rw [hrow]; exact ⟨Nat.zero_add i, rfl, rfl, rfl⟩⟩

/-- C1 witness: the single-alloc trace, row 0 pairs with the trajectory at
position 0. -/
theorem db_rows_match_trajectories_witness :
    ∃ t, (process_alloc_data [mkAlloc 1 10]).data.get? 0 = some t ∧
      (([(⟨0, 10, 0, 1, ""⟩ : Row)].getD 0 default).idx = 0) ∧
      (([(⟨0, 10, 0, 1, ""⟩ : Row)].getD 0 default).size = t.size) ∧
      (([(⟨0, 10, 0, 1, ""⟩ : Row)].getD 0 default).start_time =
        t.timesteps.headD 0) ∧
      (([(⟨0, 10, 0, 1, ""⟩ : Row)].getD 0 default).end_time =
        t.timesteps.getLastD 0) :=
  db_rows_match_trajectories [mkAlloc 1 10] [⟨0, 10, 0, 1, ""⟩]
    (by decide) 0 (by decide)

/-- C3 witness: the stack-shift trace has non-negative sizes, and the
emitted trajectory 1 indeed starts and ends at non-negative offsets. -/
theorem offsets_first_last_nonneg_witness :
    0 ≤ (Traj.mk 1 [1, 2, 5, 6] [10, 10, 0, 0] 20 1).offsets.headD 0 ∧
    0 ≤ (Traj.mk 1 [1, 2, 5, 6] [10, 10, 0, 0] 20 1).offsets.getLastD 0 :=
  offsets_first_last_nonneg s4Trace (by decide) _ (by decide)

/-- C6 witness: on `[alloc(1,10), free(1,10)]`, the free at position 1 is
matched to element 0, which occurs exactly twice in the final actions. -/
theorem classifier_free_behavior_witness :
    (classify [mkAlloc 1 10, mkFree 1 10]).actions.count 0 = 2 :=
  ((classifier_free_behavior [mkAlloc 1 10, mkFree 1 10] 1 0 (by decide)
      (Or.inl (by decide))).1 (by decide)).2

/-- C2 counterexample: on `[alloc(1,10), alloc(2,20), free(1)]` the shift
sample appended to trajectory 1 at timestep 5 has offset `0`
(`10 - 10`), not `-10`, and finalization appends `(6, 0)`, not `(6, -10)`:
the claim's offsets `-10` do not occur. -/
theorem shift_scenario_neg_offset_refuted :
    ((process_alloc_data s4Trace).data.getD 1 default).offsets = [10, 10, 0, 0] ∧
    ¬ ((process_alloc_data s4Trace).data.getD 1 default).offsets.getLastD 0 = -10 ∧
    ¬ (-10 : Int) ∈ ((process_alloc_data s4Trace).data.getD 1 default).offsets := by
  decide

/-- C2 amended: on the three-event input, after the two allocs trajectory 0
is at offset 0 and trajectory 1 at offset 10 with timestep 2; the free
closes trajectory 0 with sample `(2, 0)` and appends to trajectory 1 the
shift samples `(2, 10)` and `(5, 0)`; after `advance(3)` then `advance(1)`
the timestep is 6; finalization appends `(6, 0)` to trajectory 1. -/
theorem shift_scenario_behavior :
    ((classify s4Trace).actions.take 2).foldl
        (actionStep (classify s4Trace).elements)
        (simAfterInit (classify s4Trace).elements
          (classify s4Trace).initially_allocated) =
      { current := [0, 1], currentT := [0, 1],
        trajs := [⟨0, [0], [0], 10, 0⟩, ⟨1, [1], [10], 20, 1⟩],
        total_mem := 30, total_summarized_mem := 0, timestep := 2,
        summary := ⟨[0, 1], [0, 10, 30], [0, 0]⟩, max_size := 30,
        max_at_time := [10, 30] } ∧
    (classify s4Trace).actions.foldl
        (actionStep (classify s4Trace).elements)
        (simAfterInit (classify s4Trace).elements
          (classify s4Trace).initially_allocated) =
      { current := [1], currentT := [1],
        trajs := [⟨0, [0, 2], [0, 0], 10, 0⟩, ⟨1, [1, 2, 5], [10, 10, 0], 20, 1⟩],
        total_mem := 20, total_summarized_mem := 0, timestep := 6,
        summary := ⟨[0, 1, 2, 5], [0, 10, 30, 30, 20], [0, 0, 0, 0]⟩,
        max_size := 30,
        max_at_time := [10, 30, 30, 30, 30, 20] } ∧
    (process_alloc_data s4Trace).data =
      [⟨0, [0, 2], [0, 0], 10, 0⟩, ⟨1, [1, 2, 5, 6], [10, 10, 0, 0], 20, 1⟩] := by
  decide

end SnapViewer
